import Mathlib

set_option maxHeartbeats 1600000
set_option maxRecDepth 8000

/-!
Verification of the palletization engine in `src/lib/calculation-worker.ts`.

The engine is embedded shallowly: JavaScript numbers are modelled as exact
rationals (ℚ); the integer values produced by `Math.floor` / `Math.ceil`
are modelled as ℤ.  Loops become folds or structural recursion, the mutable
`idCounter` closure is threaded explicitly, and the `Promise`/`setTimeout`
wrapper of the public entry point is modelled by the underlying total
function (a total Lean function cannot throw, so the `catch` branch of the
wrapper is unreachable in the model).
-/

namespace PalletBuilder

/-- `BoxType` from calculation-worker.ts. -/
structure BoxType where
  id : String
  sku : String
  length : ℚ
  width : ℚ
  height : ℚ
  weight : ℚ
  quantity : ℚ
  color : String
  deriving DecidableEq

/-- `PalletConfig` from calculation-worker.ts. -/
structure PalletConfig where
  type : String
  width : ℚ
  depth : ℚ
  height : ℚ
  maxHeight : ℚ
  deriving DecidableEq

/-- `BoxPlacement` from calculation-worker.ts. -/
structure BoxPlacement where
  x : ℚ
  z : ℚ
  box : BoxType
  rotation : ℕ
  layer : ℕ
  deriving DecidableEq

/-- `PalletResult` from calculation-worker.ts.  `totalBoxes` is the length of
`placements`, hence ℕ. -/
structure PalletResult where
  palletNumber : ℕ
  placements : List BoxPlacement
  layers : ℕ
  boxesPerLayer : ℤ
  totalBoxes : ℕ
  totalWeight : ℚ
  efficiency : ℚ
  totalHeight : ℚ
  deriving DecidableEq

/-- `CalculationResult` from calculation-worker.ts.  The
`boxDistribution` map `{ [sku]: { [palletNumber]: count } }` is modelled as an
association list. -/
structure CalculationResult where
  pallets : List PalletResult
  totalPallets : ℕ
  totalBoxes : ℕ
  totalWeight : ℚ
  averageEfficiency : ℚ
  boxDistribution : List (String × List (ℕ × ℕ))
  error : Option String
  deriving DecidableEq

/-- `const EPS = 1e-6`. -/
def EPS : ℚ := 1 / 1000000

/-- JavaScript `Math.trunc`-style truncation of a rational (round toward 0);
used to model the float remainder operator `%`. -/
def jsTrunc (x : ℚ) : ℤ := if 0 ≤ x then ⌊x⌋ else -⌊-x⌋

/-- JavaScript `a % b` on finite numbers: `a - b * trunc(a / b)`.
(For `b = 0` JavaScript yields NaN; the engine never takes `%` by zero on a
reachable path, and the model then returns `a`.) -/
def jsMod (a b : ℚ) : ℚ := a - b * (jsTrunc (a / b) : ℚ)

/-- `Footprint` from calculation-worker.ts (`rot` is the literal 0 or 90). -/
structure Footprint where
  len : ℚ
  wid : ℚ
  rot : ℕ
  deriving DecidableEq

/-- `LayerBlock` from calculation-worker.ts. -/
structure LayerBlock where
  cols : ℤ
  rows : ℤ
  fp : Footprint
  deriving DecidableEq

/-- The `kind` discriminator of `LayerPattern`. -/
inductive PatternKind where
  | grid
  | splitX
  | splitZ
  deriving DecidableEq

/-- `LayerPattern` from calculation-worker.ts. -/
structure LayerPattern where
  kind : PatternKind
  blocks : List LayerBlock
  usedWidth : ℚ
  usedDepth : ℚ
  perLayer : ℤ
  maxCols : ℤ
  maxRows : ℤ
  deriving DecidableEq

/-- `Cell` from calculation-worker.ts. -/
structure Cell where
  x : ℚ
  z : ℚ
  fp : Footprint
  deriving DecidableEq

/-- `clampCenterInsidePallet` from calculation-worker.ts (lines 72-86). -/
def clampCenterInsidePallet (cx cz len wid palletW palletD : ℚ) : ℚ × ℚ :=
  let halfW := palletW / 2
  let halfD := palletD / 2
  let minCx := -halfW + len / 2 + EPS
  let maxCx := halfW - len / 2 - EPS
  let minCz := -halfD + wid / 2 + EPS
  let maxCz := halfD - wid / 2 - EPS
  (max minCx (min maxCx cx), max minCz (min maxCz cz))

/-- `emptyResult` from calculation-worker.ts (lines 188-190). -/
def emptyResult (error : String) : CalculationResult :=
  { pallets := [], totalPallets := 0, totalBoxes := 0, totalWeight := 0,
    averageEfficiency := 0, boxDistribution := [], error := some error }

/-- `buildGridPattern` from calculation-worker.ts (lines 374-386). -/
def buildGridPattern (width depth : ℚ) (fp : Footprint) : LayerPattern :=
  let cols : ℤ := ⌊width / fp.len⌋
  let rows : ℤ := ⌊depth / fp.wid⌋
  let usedWidth := (cols : ℚ) * fp.len
  let usedDepth := (rows : ℚ) * fp.wid
  let perLayer := max 0 cols * max 0 rows
  { kind := .grid, blocks := [⟨cols, rows, fp⟩], usedWidth := usedWidth,
    usedDepth := usedDepth, perLayer := perLayer, maxCols := cols, maxRows := rows }

/-- Loop body of `buildSplitXPatterns` (lines 388-411): the sweep
`for (cLeft = 1; cLeft <= maxLeftCols; cLeft++)` with its early `break` when
`remainingW < 0`; `fuel` counts the iterations left up to `maxLeftCols`. -/
def buildSplitXAux (width depth : ℚ) (left right : Footprint) : ℕ → ℕ → List LayerPattern
  | _, 0 => []
  | cLeft, fuel + 1 =>
    let remainingW := width - (cLeft : ℚ) * left.len
    if remainingW < 0 then []
    else
      let cRight : ℤ := ⌊remainingW / right.len⌋
      let rowsLeft : ℤ := ⌊depth / left.wid⌋
      let rowsRight : ℤ := ⌊depth / right.wid⌋
      let perLayer := (cLeft : ℤ) * rowsLeft + cRight * rowsRight
      let usedWidth := (cLeft : ℚ) * left.len + (cRight : ℚ) * right.len
      let usedDepth := max ((rowsLeft : ℚ) * left.wid) ((rowsRight : ℚ) * right.wid)
      { kind := .splitX,
        blocks := [⟨(cLeft : ℤ), rowsLeft, left⟩, ⟨cRight, rowsRight, right⟩],
        usedWidth := usedWidth, usedDepth := usedDepth, perLayer := perLayer,
        maxCols := max (cLeft : ℤ) cRight,
        maxRows := max rowsLeft rowsRight } ::
        buildSplitXAux width depth left right (cLeft + 1) fuel

/-- `buildSplitXPatterns` from calculation-worker.ts (lines 388-411). -/
def buildSplitXPatterns (width depth : ℚ) (left right : Footprint) : List LayerPattern :=
  buildSplitXAux width depth left right 1 (⌊width / left.len⌋).toNat

/-- Loop body of `buildSplitZPatterns` (lines 413-436), analogous to
`buildSplitXAux`. -/
def buildSplitZAux (width depth : ℚ) (front back : Footprint) : ℕ → ℕ → List LayerPattern
  | _, 0 => []
  | rFront, fuel + 1 =>
    let remainingD := depth - (rFront : ℚ) * front.wid
    if remainingD < 0 then []
    else
      let rBack : ℤ := ⌊remainingD / back.wid⌋
      let colsFront : ℤ := ⌊width / front.len⌋
      let colsBack : ℤ := ⌊width / back.len⌋
      let perLayer := (rFront : ℤ) * colsFront + rBack * colsBack
      let usedDepth := (rFront : ℚ) * front.wid + (rBack : ℚ) * back.wid
      let usedWidth := max ((colsFront : ℚ) * front.len) ((colsBack : ℚ) * back.len)
      { kind := .splitZ,
        blocks := [⟨colsFront, (rFront : ℤ), front⟩, ⟨colsBack, rBack, back⟩],
        usedWidth := usedWidth, usedDepth := usedDepth, perLayer := perLayer,
        maxCols := max colsFront colsBack,
        maxRows := max (rFront : ℤ) rBack } ::
        buildSplitZAux width depth front back (rFront + 1) fuel

/-- `buildSplitZPatterns` from calculation-worker.ts (lines 413-436). -/
def buildSplitZPatterns (width depth : ℚ) (front back : Footprint) : List LayerPattern :=
  buildSplitZAux width depth front back 1 (⌊depth / front.wid⌋).toNat

/-- `scoreTuple` closure inside `chooseBestLayerPattern` (lines 336-352):
the 6-component lexicographic ranking key, as a list of rationals. -/
def scoreTuple (totalQty : ℚ) (c : LayerPattern) : List ℚ :=
  let usedArea := c.usedWidth * c.usedDepth
  let squareness := -|c.usedWidth - c.usedDepth|
  let simplicity := -((c.blocks.length : ℚ) - 1)
  let divisible : ℚ := if jsMod totalQty (c.perLayer : ℚ) = 0 then 1 else 0
  let remainder := jsMod totalQty (c.perLayer : ℚ)
  [(c.perLayer : ℚ), usedArea, squareness, simplicity, divisible, -remainder]

/-- The inner comparison loop of `chooseBestLayerPattern` (lines 360-364):
`key` beats `bestKey` iff at the first position where they differ, `key` is
larger; equal tuples are not "better". -/
def jsLexGT : List ℚ → List ℚ → Bool
  | x :: xs, y :: ys => if y < x then true else if x < y then false else jsLexGT xs ys
  | _, _ => false

/-- The `candidates` array of `chooseBestLayerPattern` (lines 315-321). -/
def layerPatternCandidates (width depth : ℚ) (a b : Footprint) : List LayerPattern :=
  [buildGridPattern width depth a, buildGridPattern width depth b] ++
  buildSplitXPatterns width depth a b ++ buildSplitXPatterns width depth b a ++
  buildSplitZPatterns width depth a b ++ buildSplitZPatterns width depth b a

/-- The `viable` filter of `chooseBestLayerPattern` (lines 324-326). -/
def viableLayerPatterns (width depth : ℚ) (a b : Footprint) : List LayerPattern :=
  (layerPatternCandidates width depth a b).filter (fun c =>
    decide (0 < c.perLayer) && decide (c.usedWidth - EPS ≤ width) &&
    decide (c.usedDepth - EPS ≤ depth))

/-- `chooseBestLayerPattern` from calculation-worker.ts (lines 308-372). -/
def chooseBestLayerPattern (width depth : ℚ) (a b : Footprint) (totalQty : ℚ) :
    Option LayerPattern :=
  match viableLayerPatterns width depth a b with
  | [] => none
  | v0 :: rest =>
    some (rest.foldl
      (fun best c =>
        if jsLexGT (scoreTuple totalQty c) (scoreTuple totalQty best) then c else best)
      v0)

/-- The doubly nested `for (r … ) for (c … )` cell loop used for one block in
`materializeLayerCells`: rows outer, columns inner, origin `(ox, oz)`. -/
def gridBlockCells (b : LayerBlock) (ox oz : ℚ) : List Cell :=
  (List.range b.rows.toNat).flatMap (fun (r : ℕ) =>
    (List.range b.cols.toNat).map (fun (c : ℕ) =>
      ⟨ox + (c : ℚ) * b.fp.len, oz + (r : ℚ) * b.fp.wid, b.fp⟩))

/-- `materializeLayerCells` from calculation-worker.ts (lines 441-509).
Block access `blocks[0]` / `blocks[1]` is modelled by pattern matching; a
pattern whose `blocks` list is too short for its kind (never produced by the
builders) yields no cells. -/
def materializeLayerCells (pattern : LayerPattern) (palletW palletD : ℚ) : List Cell :=
  let offsetX := (palletW - pattern.usedWidth) / 2
  let offsetZ := (palletD - pattern.usedDepth) / 2
  match pattern.kind with
  | .grid =>
    match pattern.blocks with
    | b :: _ =>
      let blockOffsetX := offsetX + (pattern.usedWidth - (b.cols : ℚ) * b.fp.len) / 2
      let blockOffsetZ := offsetZ + (pattern.usedDepth - (b.rows : ℚ) * b.fp.wid) / 2
      gridBlockCells b blockOffsetX blockOffsetZ
    | [] => []
  | .splitX =>
    match pattern.blocks with
    | left :: right :: _ =>
      let leftOffsetZ := offsetZ + (pattern.usedDepth - (left.rows : ℚ) * left.fp.wid) / 2
      let curX := offsetX + (left.cols : ℚ) * left.fp.len
      let rightOffsetZ := offsetZ + (pattern.usedDepth - (right.rows : ℚ) * right.fp.wid) / 2
      gridBlockCells left offsetX leftOffsetZ ++ gridBlockCells right curX rightOffsetZ
    | _ => []
  | .splitZ =>
    match pattern.blocks with
    | front :: back :: _ =>
      let frontOffsetX := offsetX + (pattern.usedWidth - (front.cols : ℚ) * front.fp.len) / 2
      let curZ := offsetZ + (front.rows : ℚ) * front.fp.wid
      let backOffsetX := offsetX + (pattern.usedWidth - (back.cols : ℚ) * back.fp.len) / 2
      gridBlockCells front frontOffsetX offsetZ ++ gridBlockCells back backOffsetX curZ
    | _ => []

/-- Placeholder cell for (unreachable) out-of-range index lookups. -/
def dummyCell : Cell := ⟨0, 0, ⟨0, 0, 0⟩⟩

/-- `dist2` closure inside `pickCornerEdgePartialCells` (lines 543-547). -/
def cellDist2 (cell : Cell) (px pz : ℚ) : ℚ :=
  let cx := cell.x + cell.fp.len / 2
  let cz := cell.z + cell.fp.wid / 2
  (cx - px) * (cx - px) + (cz - pz) * (cz - pz)

/-- The `for (const i of remaining)`/`d < bestD` scan used by both phases of
`pickCornerEdgePartialCells`: the first index of `l` attaining the minimum of
`f` (strict `<` keeps the earlier index on ties), `none` on an empty list. -/
def argminQ (f : ℕ → ℚ) (l : List ℕ) : Option ℕ :=
  l.foldl
    (fun acc i =>
      match acc with
      | none => some i
      | some j => if f i < f j then some i else acc)
    none

theorem argminQ_mem {f : ℕ → ℚ} {l : List ℕ} {i : ℕ} (h : argminQ f l = some i) :
    i ∈ l := by
  suffices h' : ∀ (l : List ℕ) (acc : Option ℕ),
      l.foldl (fun acc i =>
        match acc with
        | none => some i
        | some j => if f i < f j then some i else acc) acc = some i →
      (acc = some i ∨ i ∈ l) by
    rcases h' l none h with h0 | h1
    · cases h0
    · exact h1
  intro l
  induction l with
  | nil => intro acc h; simp only [List.foldl_nil] at h; exact Or.inl h
  | cons a t ih =>
    intro acc h
    simp only [List.foldl_cons] at h
    rcases acc with _ | j
    · rcases ih (some a) h with h0 | h1
      · exact Or.inr (by simp only [Option.some.injEq] at h0; simp [h0])
      · exact Or.inr (List.mem_cons_of_mem _ h1)
    · by_cases hlt : f a < f j
      · simp only [hlt, if_true] at h
        rcases ih (some a) h with h0 | h1
        · exact Or.inr (by simp only [Option.some.injEq] at h0; simp [h0])
        · exact Or.inr (List.mem_cons_of_mem _ h1)
      · simp only [hlt, if_false] at h
        rcases ih (some j) h with h0 | h1
        · exact Or.inl h0
        · exact Or.inr (List.mem_cons_of_mem _ h1)

/-- Phase 2 of `pickCornerEdgePartialCells` (lines 584-591): the
`while (picked.length < r && remaining.size)` loop, picking the first index
with minimal edge score each round.  Each pass removes exactly one element of
`remaining`, so the loop is driven by a structural fuel initialized to
`remaining.length` (never exhausted before `remaining` empties). -/
def pickEdgeLoopAux (f : ℕ → ℚ) (r : ℚ) : ℕ → List ℕ → List ℕ → List ℕ
  | 0, picked, _ => picked
  | fuel + 1, picked, remaining =>
    if ((picked.length : ℚ) < r) ∧ remaining ≠ [] then
      match argminQ f remaining with
      | some i => pickEdgeLoopAux f r fuel (picked ++ [i]) (remaining.erase i)
      | none => picked
    else picked

/-- Phase 2 of `pickCornerEdgePartialCells` (lines 584-591). -/
def pickEdgeLoop (f : ℕ → ℚ) (r : ℚ) (picked remaining : List ℕ) : List ℕ :=
  pickEdgeLoopAux f r remaining.length picked remaining

/-- Phase 1 of `pickCornerEdgePartialCells` (lines 556-571): one pass of the
corner loop for corner `k` — take the first exact corner cell still remaining,
else the remaining cell nearest that corner.  The corner predicates and corner
points are passed in from the enclosing function. -/
def pickCornerStep (cells : List Cell) (r : ℚ) (cornerPred : ℕ → Cell → Bool)
    (cornerPoint : ℕ → ℚ × ℚ) (st : List ℕ × List ℕ) (k : ℕ) : List ℕ × List ℕ :=
  if (st.1.length : ℚ) < r then
    match (cells.enum.find? (fun ic => st.2.contains ic.1 && cornerPred k ic.2)) with
    | some ic => (st.1 ++ [ic.1], st.2.erase ic.1)
    | none =>
      match argminQ
          (fun i => cellDist2 (cells.getD i dummyCell) (cornerPoint k).1 (cornerPoint k).2)
          st.2 with
      | some i => (st.1 ++ [i], st.2.erase i)
      | none => st
  else st

/-- `pickCornerEdgePartialCells` from calculation-worker.ts (lines 515-594),
returning the picked indices into `cells`.  In the source the bounds are
reduced from `±Infinity`; on a nonempty list this equals seeding the fold with
the head's value, and on an empty list no index can ever be picked, so the
model returns `[]` there.  The `remaining` Set (insertion order 0,1,2,…) is a
sorted index list; `corners[k]` and corner points are indexed by `k < 4`. -/
def pickCornerEdgePartialIdxs (cells : List Cell) (r : ℚ) : List ℕ :=
  if r ≤ 0 then []
  else
    match cells with
    | [] => []
    | c0 :: _ =>
      let minX := (cells.map Cell.x).foldl min c0.x
      let minZ := (cells.map Cell.z).foldl min c0.z
      let maxX := (cells.map (fun c => c.x + c.fp.len)).foldl max (c0.x + c0.fp.len)
      let maxZ := (cells.map (fun c => c.z + c.fp.wid)).foldl max (c0.z + c0.fp.wid)
      let minCol := (cells.map Cell.x).foldl min c0.x
      let maxCol := (cells.map Cell.x).foldl max c0.x
      let minRow := (cells.map Cell.z).foldl min c0.z
      let maxRow := (cells.map Cell.z).foldl max c0.z
      let cornerPred : ℕ → Cell → Bool := fun k c =>
        match k with
        | 0 => decide (c.x = minCol) && decide (c.z = minRow)
        | 1 => decide (c.x = minCol) && decide (c.z = maxRow)
        | 2 => decide (c.x = maxCol) && decide (c.z = minRow)
        | _ => decide (c.x = maxCol) && decide (c.z = maxRow)
      let cornerPoint : ℕ → ℚ × ℚ := fun k =>
        match k with
        | 0 => (minX, minZ)
        | 1 => (minX, maxZ)
        | 2 => (maxX, minZ)
        | _ => (maxX, maxZ)
      let getCell := fun i => cells.getD i dummyCell
      let afterCorners := [0, 1, 2, 3].foldl
        (pickCornerStep cells r cornerPred cornerPoint) ([], List.range cells.length)
      let edgeScore := fun (cell : Cell) =>
        let cx := cell.x + cell.fp.len / 2
        let cz := cell.z + cell.fp.wid / 2
        min (min (cx - minX) (maxX - cx)) (min (cz - minZ) (maxZ - cz))
      pickEdgeLoop (fun i => edgeScore (getCell i)) r afterCorners.1 afterCorners.2

/-- `pickCornerEdgePartialCells` (lines 515-594): `picked.map(i => cells[i])`. -/
def pickCornerEdgePartialCells (cells : List Cell) (r : ℚ) : List Cell :=
  (pickCornerEdgePartialIdxs cells r).map (fun i => cells.getD i dummyCell)

/-- The `layersPerPallet` array of `buildTargetsByFullLayers` (lines 203-215):
base layers per pallet plus the distributed extra layers, clamped to
`layersMax`.  The source decrements a mutable `extraLayers` counter once per
iteration while positive, so the counter is positive at index `i` iff `i` is
below its initial value `totalFullLayers % pallets`. -/
def targetsLayersList (totalFullLayers pallets layersMax : ℤ) : List ℤ :=
  let baseLayers := Int.fdiv totalFullLayers pallets
  let extraLayers := Int.tmod totalFullLayers pallets
  (List.range pallets.toNat).map (fun (i : ℕ) =>
    min (baseLayers + if (i : ℤ) < extraLayers then 1 else 0) layersMax)

/-- Lines 220-229 of `buildTargetsByFullLayers`: place the remainder on the
LAST pallet that still has vertical capacity (searching from the end); if none
has spare layers the remainder is kept. -/
def placeRemainder (counts0 : List ℚ) (layersPerPallet : List ℤ) (rem : ℚ)
    (layersMax pallets : ℤ) : List ℚ × ℚ :=
  if 0 < rem then
    match (List.range pallets.toNat).reverse.find?
        (fun i => decide (layersPerPallet.getD i 0 < layersMax)) with
    | some i => (counts0.set i (counts0.getD i 0 + rem), 0)
    | none => (counts0, rem)
  else (counts0, rem)

/-- One iteration of the defensive `while (rem > 0 && idx >= 0)` loop of
`buildTargetsByFullLayers` (lines 233-240). -/
def spreadStep (K : ℤ) (st : List ℚ × ℚ) (i : ℕ) : List ℚ × ℚ :=
  if 0 < st.2 then
    let c := st.1.getD i 0
    let m := jsMod c (K : ℚ)
    let room := (K : ℚ) - (if m = 0 then (K : ℚ) else m)
    let take := min st.2 room
    (st.1.set i (c + take), st.2 - take)
  else st

/-- The defensive spread loop of `buildTargetsByFullLayers` (lines 233-240),
iterating indices from the last pallet back to the first. -/
def spreadLeftover (K pallets : ℤ) (st : List ℚ × ℚ) : List ℚ × ℚ :=
  (List.range pallets.toNat).reverse.foldl (spreadStep K) st

/-- The exact-sum reconciliation of `buildTargetsByFullLayers` (lines 243-247):
add any residual difference onto the last pallet. -/
def reconcile (total : ℚ) (counts : List ℚ) (n : ℕ) : List ℚ :=
  let diff := total - counts.sum
  if diff ≠ 0 then counts.set (n - 1) (counts.getD (n - 1) 0 + diff) else counts

/-- `buildTargetsByFullLayers` from calculation-worker.ts (lines 199-250).
`pallets`, `K` and `layersMax` reach this function as integers; the stages of
the source body are the helper functions above. -/
def buildTargetsByFullLayers (total : ℚ) (pallets K layersMax : ℤ) : List ℚ :=
  let totalFullLayers : ℤ := ⌊total / (K : ℚ)⌋
  let rem := jsMod total (K : ℚ)
  let layersPerPallet := targetsLayersList totalFullLayers pallets layersMax
  let counts0 : List ℚ := layersPerPallet.map (fun l => ((l * K : ℤ) : ℚ))
  let st1 := placeRemainder counts0 layersPerPallet rem layersMax pallets
  let st2 := spreadLeftover K pallets st1
  reconcile total st2.1 pallets.toNat

/-- The placement-construction statements shared by the full-layer and
partial-layer branches of `buildPlacementsForPallet` (lines 276-281 and
291-296): convert a cell to a pallet-centered clamped position and clone the
base box with a fresh id. -/
def placeCell (base : BoxType) (pallet : PalletConfig) (cell : Cell) (layer : ℕ)
    (idNum : ℕ) : BoxPlacement :=
  let cx := (cell.x + cell.fp.len / 2) - pallet.width / 2
  let cz := (cell.z + cell.fp.wid / 2) - pallet.depth / 2
  let c := clampCenterInsidePallet cx cz cell.fp.len cell.fp.wid pallet.width pallet.depth
  { x := c.1, z := c.2, box := { base with id := base.id ++ "-" ++ toString idNum },
    rotation := cell.fp.rot, layer := layer }

/-- `buildPlacementsForPallet` from calculation-worker.ts (lines 257-303).
The shared `idCounter` closure is threaded as `startId`; the result is
`(placements, layersUsed, next idCounter)`.  The source re-materializes the
(identical) cell list for every layer; the model materializes it once.  The
`allFull` argument is received and, as in the source, never read. -/
def buildPlacementsForPallet (targetCount : ℚ) (layersMax : ℤ) (pattern : LayerPattern)
    (base : BoxType) (pallet : PalletConfig) (startId : ℕ) (allFull : Bool) :
    List BoxPlacement × ℕ × ℕ :=
  let K : ℤ := max 1 pattern.perLayer
  let cells := materializeLayerCells pattern pallet.width pallet.depth
  let fullLayers : ℤ := min ⌊targetCount / (K : ℚ)⌋ layersMax
  let nF := fullLayers.toNat
  let fullPl := (List.range nF).flatMap (fun li =>
    cells.enum.map (fun ic => placeCell base pallet ic.2 li (startId + li * cells.length + ic.1)))
  let remaining := targetCount - (nF : ℚ) * (K : ℚ)
  if 0 < remaining ∧ (nF : ℤ) < layersMax then
    let picked := pickCornerEdgePartialCells cells remaining
    let partPl := picked.enum.map (fun ic =>
      placeCell base pallet ic.2 nF (startId + nF * cells.length + ic.1))
    (fullPl ++ partPl, nF + 1, startId + nF * cells.length + picked.length)
  else
    (fullPl, nF, startId + nF * cells.length)

/-- The validity filter on input boxes in `performCalc` (lines 109-112):
positive dimensions and positive quantity (`(b.quantity || 0) > 0` is plain
positivity on a rational). -/
def validBoxes (boxes : List BoxType) : List BoxType :=
  boxes.filter (fun b =>
    decide (0 < b.length) && decide (0 < b.width) && decide (0 < b.height) &&
    decide (0 < b.quantity))

/-- The per-pallet loop body of `performCalc` (lines 147-171); the state is
`(idCounter, pallets so far)`. -/
def performCalcPalletStep (capacityPerPallet layersMax : ℤ) (pattern : LayerPattern)
    (base : BoxType) (pallet : PalletConfig) (allFull : Bool)
    (st : ℕ × List PalletResult) (pt : ℕ × ℚ) : ℕ × List PalletResult :=
  let p := pt.1
  let t := min pt.2 (capacityPerPallet : ℚ)
  let r := buildPlacementsForPallet t layersMax pattern base pallet st.1 allFull
  let placements := r.1
  let layersUsed := r.2.1
  let nextId := r.2.2
  let count := placements.length
  let usedVol := (count : ℚ) * base.length * base.width * base.height
  let capVol := pallet.width * pallet.depth * (pallet.maxHeight - pallet.height)
  let eff := min 100 ((usedVol / max capVol EPS) * 100)
  let pr : PalletResult :=
    { palletNumber := p + 1, placements := placements, layers := layersUsed,
      boxesPerLayer := pattern.perLayer, totalBoxes := count,
      totalWeight := (count : ℚ) * base.weight, efficiency := eff,
      totalHeight := pallet.height + (layersUsed : ℚ) * base.height }
  (nextId, st.2 ++ [pr])

/-- The success branch of `performCalc` (lines 128-185): capacity, minimal
pallet count, target distribution, per-pallet placement construction and
aggregation.  `base` is the aggregated box (its `quantity` is the total). -/
def performCalcCore (base : BoxType) (pallet : PalletConfig) (pattern : LayerPattern)
    (layersMax : ℤ) : CalculationResult :=
  let K := pattern.perLayer
  let capacityPerPallet := K * layersMax
  let minPallets : ℤ := max 1 ⌈base.quantity / ((max 1 capacityPerPallet : ℤ) : ℚ)⌉
  let targets := buildTargetsByFullLayers base.quantity minPallets K layersMax
  let allFull := targets.all (fun t => decide (jsMod t (K : ℚ) = 0))
  let palletsOut := (targets.enum.foldl
    (performCalcPalletStep capacityPerPallet layersMax pattern base pallet allFull)
    (0, [])).2
  let totalPallets := palletsOut.length
  let totalBoxes := (palletsOut.map PalletResult.totalBoxes).sum
  let totalWeight := (palletsOut.map PalletResult.totalWeight).sum
  let avgEff := if totalPallets ≠ 0 then
      (palletsOut.map PalletResult.efficiency).sum / (totalPallets : ℚ)
    else 0
  { pallets := palletsOut, totalPallets := totalPallets, totalBoxes := totalBoxes,
    totalWeight := totalWeight, averageEfficiency := avgEff,
    boxDistribution :=
      [(base.sku, palletsOut.map (fun pr => (pr.palletNumber, pr.totalBoxes)))],
    error := none }

/-- `performCalc` from calculation-worker.ts (lines 104-186). -/
def performCalc (boxes : List BoxType) (pallet : PalletConfig) : CalculationResult :=
  if pallet.width ≤ 0 ∨ pallet.depth ≤ 0 ∨ pallet.maxHeight ≤ pallet.height then
    emptyResult "Invalid pallet configuration"
  else
    match validBoxes boxes with
    | [] => emptyResult "No valid boxes with dimensions defined"
    | b0 :: rest =>
      let totalQty := ((b0 :: rest).map BoxType.quantity).sum
      let base : BoxType := { b0 with quantity := totalQty }
      let fp0 : Footprint := ⟨base.length, base.width, 0⟩
      let fp90 : Footprint := ⟨base.width, base.length, 90⟩
      match chooseBestLayerPattern pallet.width pallet.depth fp0 fp90 totalQty with
      | none => emptyResult "Box footprint does not fit on pallet area"
      | some pattern =>
        if pattern.perLayer = 0 then emptyResult "Box footprint does not fit on pallet area"
        else
          let layersMax : ℤ := ⌊((pallet.maxHeight - pallet.height) + EPS) / base.height⌋
          if layersMax ≤ 0 then emptyResult "No vertical clearance for a single layer"
          else performCalcCore base pallet pattern layersMax

/-- `calculateMultiPalletLayout` from calculation-worker.ts (lines 88-102): the
public entry point resolves with `performCalc`'s value (the `_pattern` string
argument is received but never read; the `catch` branch of the wrapper is
unreachable for a total function). -/
def calculateMultiPalletLayout (boxes : List BoxType) (pallet : PalletConfig)
    (_pattern : String) : CalculationResult :=
  performCalc boxes pallet

/-! ### Lexicographic comparison: order-theoretic lemmas -/

theorem jsLexGT_irrefl : ∀ k : List ℚ, jsLexGT k k = false
  | [] => rfl
  | x :: xs => by simp [jsLexGT, jsLexGT_irrefl xs]

theorem jsLexGT_asymm : ∀ {a b : List ℚ}, jsLexGT a b = true → jsLexGT b a = false
  | [], _ => by intro h; simp [jsLexGT] at h
  | _ :: _, [] => by intro h; simp [jsLexGT] at h
  | x :: xs, y :: ys => by
    intro h
    simp only [jsLexGT] at h ⊢
    by_cases h1 : y < x
    · rw [if_neg (lt_asymm h1), if_pos h1]
    · rw [if_neg h1] at h
      by_cases h2 : x < y
      · rw [if_pos h2] at h; cases h
      · rw [if_neg h2] at h
        rw [if_neg h2, if_neg h1]
        exact jsLexGT_asymm h

/-- From `a > b` and `¬(a > r)` (so `r ≥ a`) conclude `r > b`, for equal-length
keys. -/
theorem jsLexGT_gt_of_not_gt : ∀ {a b r : List ℚ}, a.length = b.length →
    a.length = r.length → jsLexGT a b = true → jsLexGT a r = false →
    jsLexGT r b = true
  | [], _, _ => by intro _ _ h _; simp [jsLexGT] at h
  | _ :: _, [], _ => by intro h _ _ _; simp at h
  | _ :: _, _ :: _, [] => by intro _ h _ _; simp at h
  | x :: xs, y :: ys, z :: zs => by
    intro hlb hlr hab har
    simp only [jsLexGT] at hab har ⊢
    by_cases h1 : y < x
    · by_cases h2 : z < x
      · rw [if_pos h2] at har; cases har
      · have hyz : y < z := lt_of_lt_of_le h1 (not_lt.mp h2)
        rw [if_pos hyz]
    · rw [if_neg h1] at hab
      by_cases h2 : x < y
      · rw [if_pos h2] at hab; cases hab
      · rw [if_neg h2] at hab
        by_cases h3 : z < x
        · rw [if_pos h3] at har; cases har
        · rw [if_neg h3] at har
          by_cases h4 : x < z
          · have hyz : y < z := lt_of_le_of_lt (not_lt.mp h2) h4
            rw [if_pos hyz]
          · rw [if_neg h4] at har
            have hxy : x = y := by
              have ha := not_lt.mp h1
              have hb := not_lt.mp h2
              linarith
            have hxz : x = z := by
              have ha := not_lt.mp h3
              have hb := not_lt.mp h4
              linarith
            rw [← hxy, ← hxz, if_neg (lt_irrefl x), if_neg (lt_irrefl x)]
            exact jsLexGT_gt_of_not_gt (by simpa using hlb) (by simpa using hlr) hab har

/-- From `a > b` and `¬(c > b)` (so `b ≥ c`) conclude `a > c`, for equal-length
keys. -/
theorem jsLexGT_gt_of_ge : ∀ {a b c : List ℚ}, a.length = b.length →
    b.length = c.length → jsLexGT a b = true → jsLexGT c b = false →
    jsLexGT a c = true
  | [], _, _ => by intro _ _ h _; simp [jsLexGT] at h
  | _ :: _, [], _ => by intro h _ _ _; simp at h
  | _ :: _, _ :: _, [] => by intro _ h _ _; simp at h
  | x :: xs, y :: ys, z :: zs => by
    intro hlb hlc hab hcb
    simp only [jsLexGT] at hab hcb ⊢
    by_cases h1 : y < x
    · by_cases h2 : y < z
      · rw [if_pos h2] at hcb; cases hcb
      · have hzx : z < x := lt_of_le_of_lt (not_lt.mp h2) h1
        rw [if_pos hzx]
    · rw [if_neg h1] at hab
      by_cases h2 : x < y
      · rw [if_pos h2] at hab; cases hab
      · rw [if_neg h2] at hab
        by_cases h3 : y < z
        · rw [if_pos h3] at hcb; cases hcb
        · rw [if_neg h3] at hcb
          by_cases h4 : z < y
          · have hzx : z < x := lt_of_lt_of_le h4 (not_lt.mp h2)
            rw [if_pos hzx]
          · rw [if_neg h4] at hcb
            have hxy : x = y := by
              have ha := not_lt.mp h1
              have hb := not_lt.mp h2
              linarith
            have hyz : y = z := by
              have ha := not_lt.mp h3
              have hb := not_lt.mp h4
              linarith
            rw [← hyz, ← hxy, if_neg (lt_irrefl x), if_neg (lt_irrefl x)]
            exact jsLexGT_gt_of_ge (by simpa using hlb) (by simpa using hlc) hab hcb

theorem scoreTuple_length (q : ℚ) (c : LayerPattern) : (scoreTuple q c).length = 6 := by
  simp [scoreTuple]

/-- The comparison-and-replace step of the selection loop in
`chooseBestLayerPattern` (lines 357-368), abstracted over the key function. -/
def chooseStep {α : Type} (key : α → List ℚ) (best c : α) : α :=
  if jsLexGT (key c) (key best) then c else best

/-- The selection loop of `chooseBestLayerPattern`: starting from `v0`, the
fold returns the first element of `v0 :: rest` whose key is a lexicographic
maximum; everything before it scores strictly lower, nothing scores strictly
higher. -/
theorem chooseFold_spec {α : Type} (key : α → List ℚ)
    (klen : ∀ x y : α, (key x).length = (key y).length) :
    ∀ (rest : List α) (v0 : α),
      ∃ pre post, v0 :: rest = pre ++ (List.foldl (chooseStep key) v0 rest) :: post ∧
        (∀ c ∈ pre, jsLexGT (key (List.foldl (chooseStep key) v0 rest)) (key c) = true) ∧
        ∀ c ∈ v0 :: rest, jsLexGT (key c) (key (List.foldl (chooseStep key) v0 rest)) = false := by
  intro rest
  induction rest with
  | nil =>
    intro v0
    refine ⟨[], [], by simp, by simp, ?_⟩
    intro c hc
    simp only [List.foldl_nil]
    simp only [List.mem_singleton] at hc
    subst hc
    exact jsLexGT_irrefl _
  | cons c t ih =>
    intro v0
    by_cases hcv : jsLexGT (key c) (key v0) = true
    · have hv1 : chooseStep key v0 c = c := by simp [chooseStep, hcv]
      obtain ⟨pre, post, hdec, hpre, hmax⟩ := ih c
      generalize hR : List.foldl (chooseStep key) c t = r at hdec hpre hmax
      have hfold : List.foldl (chooseStep key) v0 (c :: t) = r := by
        rw [List.foldl_cons, hv1, hR]
      have hcr : jsLexGT (key c) (key r) = false := hmax c (List.mem_cons_self _ _)
      have hrv0 : jsLexGT (key r) (key v0) = true :=
        jsLexGT_gt_of_not_gt (klen _ _) (klen _ _) hcv hcr
      refine ⟨v0 :: pre, post, ?_, ?_, ?_⟩
      · rw [hfold, List.cons_append]
        exact congrArg (v0 :: ·) hdec
      · intro x hx
        rw [hfold]
        rcases List.mem_cons.mp hx with rfl | hx
        · exact hrv0
        · exact hpre x hx
      · intro x hx
        rw [hfold]
        rcases List.mem_cons.mp hx with rfl | hx
        · exact jsLexGT_asymm hrv0
        · exact hmax x hx
    · have hcv' : jsLexGT (key c) (key v0) = false := Bool.not_eq_true _ ▸ hcv
      have hv1 : chooseStep key v0 c = v0 := by simp [chooseStep, hcv']
      obtain ⟨pre, post, hdec, hpre, hmax⟩ := ih v0
      generalize hR : List.foldl (chooseStep key) v0 t = r at hdec hpre hmax
      have hfold : List.foldl (chooseStep key) v0 (c :: t) = r := by
        rw [List.foldl_cons, hv1, hR]
      rcases pre with _ | ⟨p0, pre'⟩
      · simp only [List.nil_append] at hdec
        injection hdec with h1 h2
        refine ⟨[], c :: t, ?_, by simp, ?_⟩
        · rw [hfold, List.nil_append, ← h1]
        · intro x hx
          rw [hfold]
          rcases List.mem_cons.mp hx with rfl | hx
          · exact hmax x (List.mem_cons_self _ _)
          rcases List.mem_cons.mp hx with rfl | hx
          · rw [h1] at hcv'
            exact hcv'
          · exact hmax x (List.mem_cons_of_mem _ hx)
      · rw [List.cons_append] at hdec
        injection hdec with h1 h2
        have hrv0 : jsLexGT (key r) (key v0) = true := by
          rw [h1]
          exact hpre p0 (List.mem_cons_self _ _)
        have hrc : jsLexGT (key r) (key c) = true :=
          jsLexGT_gt_of_ge (klen _ _) (klen _ _) hrv0 hcv'
        refine ⟨v0 :: c :: pre', post, ?_, ?_, ?_⟩
        · rw [hfold]
          simp only [List.cons_append]
          exact congrArg (v0 :: ·) (congrArg (c :: ·) h2)
        · intro x hx
          rw [hfold]
          rcases List.mem_cons.mp hx with rfl | hx
          · exact hrv0
          rcases List.mem_cons.mp hx with rfl | hx
          · exact hrc
          · exact hpre x (List.mem_cons_of_mem _ hx)
        · intro x hx
          rw [hfold]
          rcases List.mem_cons.mp hx with rfl | hx
          · exact jsLexGT_asymm hrv0
          rcases List.mem_cons.mp hx with rfl | hx
          · exact jsLexGT_asymm hrc
          · exact hmax x (List.mem_cons_of_mem _ hx)

/-- The selected pattern is one of the viable candidates. -/
theorem chooseBestLayerPattern_mem_viable {width depth : ℚ} {a b : Footprint}
    {q : ℚ} {p : LayerPattern} (h : chooseBestLayerPattern width depth a b q = some p) :
    p ∈ viableLayerPatterns width depth a b := by
  unfold chooseBestLayerPattern at h
  rcases hv : viableLayerPatterns width depth a b with _ | ⟨v0, rest⟩
  · rw [hv] at h; cases h
  · rw [hv] at h
    simp only [Option.some.injEq] at h
    obtain ⟨pre, post, hdec, -, -⟩ :=
      chooseFold_spec (scoreTuple q) (fun x y => by simp [scoreTuple_length]) rest v0
    rw [show List.foldl (chooseStep (scoreTuple q)) v0 rest =
        rest.foldl (fun best c =>
          if jsLexGT (scoreTuple q c) (scoreTuple q best) then c else best) v0 from rfl,
      h] at hdec
    rw [hdec]
    exact List.mem_append.mpr (Or.inr (List.mem_cons_self _ _))

/-! ### C10: the pattern-string argument is dead -/

/-- C10: the public entry point's third argument (the pattern string) has no
effect on the output — for every boxes list, pallet envelope and any two
pattern strings `s1`, `s2`, the two calls produce identical results (the
argument is received but never read). -/
theorem calculateMultiPalletLayout_ignores_pattern (boxes : List BoxType)
    (pallet : PalletConfig) (s1 s2 : String) :
    calculateMultiPalletLayout boxes pallet s1 = calculateMultiPalletLayout boxes pallet s2 :=
  rfl

/-! ### C2: error-as-value contract -/

/-- Every result of `performCalc` is either one of the `emptyResult` error
values or carries `error = none`. -/
theorem performCalc_cases (boxes : List BoxType) (pallet : PalletConfig) :
    (∃ e, performCalc boxes pallet = emptyResult e) ∨
      (performCalc boxes pallet).error = none := by
  unfold performCalc
  split
  · exact Or.inl ⟨_, rfl⟩
  · split
    · exact Or.inl ⟨_, rfl⟩
    · unfold_let
      split
      · exact Or.inl ⟨_, rfl⟩
      · split
        · exact Or.inl ⟨_, rfl⟩
        · split
          · exact Or.inl ⟨_, rfl⟩
          · exact Or.inr rfl

/-- C2: the public entry point always resolves with a `CalculationResult`
(it is a total function of its inputs; all failure modes are encoded in the
`error` field), and whenever the `error` field is set, the pallets list is
empty and all aggregate totals are zero. -/
theorem calculateMultiPalletLayout_error_contract (boxes : List BoxType)
    (pallet : PalletConfig) (s : String) (e : String)
    (h : (calculateMultiPalletLayout boxes pallet s).error = some e) :
    (calculateMultiPalletLayout boxes pallet s).pallets = [] ∧
    (calculateMultiPalletLayout boxes pallet s).totalPallets = 0 ∧
    (calculateMultiPalletLayout boxes pallet s).totalBoxes = 0 ∧
    (calculateMultiPalletLayout boxes pallet s).totalWeight = 0 ∧
    (calculateMultiPalletLayout boxes pallet s).averageEfficiency = 0 := by
  have hcases := performCalc_cases boxes pallet
  unfold calculateMultiPalletLayout at *
  rcases hcases with ⟨e', he'⟩ | hnone
  · rw [he']
    simp [emptyResult]
  · rw [hnone] at h
    cases h

/-- Witness for C2 at a concrete erroring input: an empty boxes list. -/
theorem calculateMultiPalletLayout_error_contract_witness :
    (calculateMultiPalletLayout [] ⟨"std", 48, 40, 11/2, 72⟩ "auto").error =
      some "No valid boxes with dimensions defined" ∧
    (calculateMultiPalletLayout [] ⟨"std", 48, 40, 11/2, 72⟩ "auto").pallets = [] ∧
    (calculateMultiPalletLayout [] ⟨"std", 48, 40, 11/2, 72⟩ "auto").totalPallets = 0 ∧
    (calculateMultiPalletLayout [] ⟨"std", 48, 40, 11/2, 72⟩ "auto").totalBoxes = 0 ∧
    (calculateMultiPalletLayout [] ⟨"std", 48, 40, 11/2, 72⟩ "auto").totalWeight = 0 ∧
    (calculateMultiPalletLayout [] ⟨"std", 48, 40, 11/2, 72⟩ "auto").averageEfficiency = 0 :=
  ⟨by with_unfolding_all decide,
    calculateMultiPalletLayout_error_contract [] ⟨"std", 48, 40, 11/2, 72⟩ "auto"
      "No valid boxes with dimensions defined" (by with_unfolding_all decide)⟩

/-! ### C8: pattern feasibility -/

/-- C8: whenever a pattern is selected, its consumed width and depth do not
exceed the deck's width and depth plus `1e-6`, and its per-layer capacity is
positive. -/
theorem chooseBestLayerPattern_feasible (width depth : ℚ) (a b : Footprint) (q : ℚ)
    (p : LayerPattern) (h : chooseBestLayerPattern width depth a b q = some p) :
    0 < p.perLayer ∧ p.usedWidth ≤ width + EPS ∧ p.usedDepth ≤ depth + EPS := by
  have hmem := chooseBestLayerPattern_mem_viable h
  unfold viableLayerPatterns at hmem
  have hfilter := List.of_mem_filter hmem
  simp only [Bool.and_eq_true, decide_eq_true_eq] at hfilter
  exact ⟨hfilter.1.1, by linarith [hfilter.1.2], by linarith [hfilter.2]⟩

/-- Witness for C8 at a concrete input (1×1 box on a 1×1 deck). -/
theorem chooseBestLayerPattern_feasible_witness :
    chooseBestLayerPattern 1 1 ⟨1, 1, 0⟩ ⟨1, 1, 90⟩ 1 =
      some (buildGridPattern 1 1 ⟨1, 1, 0⟩) ∧
    (0 < (buildGridPattern 1 1 ⟨1, 1, 0⟩).perLayer ∧
      (buildGridPattern 1 1 ⟨1, 1, 0⟩).usedWidth ≤ 1 + EPS ∧
      (buildGridPattern 1 1 ⟨1, 1, 0⟩).usedDepth ≤ 1 + EPS) :=
  ⟨by with_unfolding_all decide,
    chooseBestLayerPattern_feasible 1 1 ⟨1, 1, 0⟩ ⟨1, 1, 90⟩ 1 _
      (by with_unfolding_all decide)⟩

/-! ### C4: the selected pattern is the strict lexicographic maximum -/

/-- C4: the selected pattern is drawn from the viable candidates and is, in
candidate generation order, the first one whose score tuple
`(perLayer, usedArea, squareness, simplicity, divisibility, -remainder)` is a
lexicographic maximum: no viable candidate scores strictly higher, and every
candidate generated before it scores strictly lower (so ties on the full
tuple are broken in favour of the earliest candidate). -/
theorem chooseBestLayerPattern_lex_argmax (width depth : ℚ) (a b : Footprint) (q : ℚ)
    (p : LayerPattern) (h : chooseBestLayerPattern width depth a b q = some p) :
    p ∈ viableLayerPatterns width depth a b ∧
    (∀ c ∈ viableLayerPatterns width depth a b,
      jsLexGT (scoreTuple q c) (scoreTuple q p) = false) ∧
    ∃ pre post, viableLayerPatterns width depth a b = pre ++ p :: post ∧
      ∀ c ∈ pre, jsLexGT (scoreTuple q p) (scoreTuple q c) = true := by
  unfold chooseBestLayerPattern at h
  rcases hv : viableLayerPatterns width depth a b with _ | ⟨v0, rest⟩
  · rw [hv] at h; cases h
  · rw [hv] at h
    simp only [Option.some.injEq] at h
    obtain ⟨pre, post, hdec, hpre, hmax⟩ :=
      chooseFold_spec (scoreTuple q) (fun x y => by simp [scoreTuple_length]) rest v0
    rw [show List.foldl (chooseStep (scoreTuple q)) v0 rest =
        rest.foldl (fun best c =>
          if jsLexGT (scoreTuple q c) (scoreTuple q best) then c else best) v0 from rfl,
      h] at hdec hpre hmax
    refine ⟨?_, ?_, pre, post, hdec, hpre⟩
    · rw [hdec]
      exact List.mem_append.mpr (Or.inr (List.mem_cons_self _ _))
    · intro c hc
      exact hmax c (hv ▸ hc)

/-! ### Partial-layer selector: exactness machinery -/

theorem argminQ_ne_none {f : ℕ → ℚ} {l : List ℕ} (h : l ≠ []) :
    argminQ f l ≠ none := by
  have key : ∀ (l : List ℕ) (j : ℕ),
      l.foldl (fun acc i =>
        match acc with
        | none => some i
        | some j => if f i < f j then some i else acc) (some j) ≠ none := by
    intro l
    induction l with
    | nil => intro j h; cases h
    | cons a t ih =>
      intro j
      simp only [List.foldl_cons]
      by_cases hfa : f a < f j
      · simp only [hfa, if_true]
        exact ih a
      · simp only [hfa, if_false]
        exact ih j
  rcases l with _ | ⟨a, t⟩
  · exact absurd rfl h
  · unfold argminQ
    simp only [List.foldl_cons]
    exact key t a

/-- One corner pass either leaves the state unchanged or moves a single index
from `remaining` to the end of `picked`. -/
theorem pickCornerStep_cases (cells : List Cell) (r : ℚ) (cP : ℕ → Cell → Bool)
    (cQ : ℕ → ℚ × ℚ) (st : List ℕ × List ℕ) (k : ℕ) :
    pickCornerStep cells r cP cQ st k = st ∨
      ∃ i ∈ st.2, pickCornerStep cells r cP cQ st k = (st.1 ++ [i], st.2.erase i) := by
  unfold pickCornerStep
  by_cases hlt : (st.1.length : ℚ) < r
  · rw [if_pos hlt]
    rcases hfind : cells.enum.find? (fun ic => st.2.contains ic.1 && cP k ic.2) with _ | ic
    · rw [hfind]
      rcases hmin : argminQ
          (fun i => cellDist2 (cells.getD i dummyCell) (cQ k).1 (cQ k).2) st.2 with _ | i
      · exact Or.inl rfl
      · exact Or.inr ⟨i, argminQ_mem hmin, rfl⟩
    · rw [hfind]
      refine Or.inr ⟨ic.1, ?_, rfl⟩
      have := List.find?_some hfind
      simp only [Bool.and_eq_true] at this
      exact List.mem_of_elem_eq_true this.1
  · rw [if_neg hlt]
    exact Or.inl rfl

/-- The corner loop preserves the multiset of indices split between `picked`
and `remaining`. -/
theorem pickCornerFold_perm (cells : List Cell) (r : ℚ) (cP : ℕ → Cell → Bool)
    (cQ : ℕ → ℚ × ℚ) : ∀ (ks : List ℕ) (st : List ℕ × List ℕ),
    ((ks.foldl (pickCornerStep cells r cP cQ) st).1 ++
      (ks.foldl (pickCornerStep cells r cP cQ) st).2).Perm (st.1 ++ st.2)
  | [], st => by simp
  | k :: ks, st => by
    simp only [List.foldl_cons]
    rcases pickCornerStep_cases cells r cP cQ st k with heq | ⟨i, hi, heq⟩
    · rw [heq]
      exact pickCornerFold_perm cells r cP cQ ks st
    · refine (pickCornerFold_perm cells r cP cQ ks _).trans ?_
      rw [heq]
      have hshift : (st.1 ++ [i]) ++ st.2.erase i = st.1 ++ (i :: st.2.erase i) := by simp
      rw [hshift]
      exact List.Perm.append_left _ (List.perm_cons_erase hi).symm

theorem pickCornerStep_eq_of_not_lt {cells : List Cell} {r : ℚ} {cP : ℕ → Cell → Bool}
    {cQ : ℕ → ℚ × ℚ} {st : List ℕ × List ℕ} {k : ℕ}
    (h : ¬ (st.1.length : ℚ) < r) : pickCornerStep cells r cP cQ st k = st := by
  unfold pickCornerStep
  rw [if_neg h]

/-- The corner loop never grows `picked` beyond `max 1 m`. -/
theorem pickCornerFold_length_le (cells : List Cell) (m : ℕ) (cP : ℕ → Cell → Bool)
    (cQ : ℕ → ℚ × ℚ) : ∀ (ks : List ℕ) (st : List ℕ × List ℕ),
    st.1.length ≤ max 1 m →
    (ks.foldl (pickCornerStep cells (m : ℚ) cP cQ) st).1.length ≤ max 1 m
  | [], st => fun h => h
  | k :: ks, st => fun h => by
    simp only [List.foldl_cons]
    by_cases hlt : (st.1.length : ℚ) < (m : ℚ)
    · rcases pickCornerStep_cases cells (m : ℚ) cP cQ st k with heq | ⟨i, hi, heq⟩
      · rw [heq]
        exact pickCornerFold_length_le cells m cP cQ ks st h
      · refine pickCornerFold_length_le cells m cP cQ ks _ ?_
        rw [heq]
        have hlt' : st.1.length < m := by exact_mod_cast hlt
        simp only [List.length_append, List.length_singleton]
        omega
    · rw [pickCornerStep_eq_of_not_lt hlt]
      exact pickCornerFold_length_le cells m cP cQ ks st h

/-- The edge loop appends fresh indices from `remaining` until `picked` has
`m` entries or `remaining` is exhausted. -/
theorem pickEdgeLoopAux_spec (f : ℕ → ℚ) (m : ℕ) :
    ∀ (fuel : ℕ) (picked remaining : List ℕ), remaining.length ≤ fuel →
    remaining.Nodup →
    ∃ ext, pickEdgeLoopAux f (m : ℚ) fuel picked remaining = picked ++ ext ∧
      (∀ i ∈ ext, i ∈ remaining) ∧ ext.Nodup ∧
      (picked ++ ext).length = max picked.length (min m (picked.length + remaining.length))
  | 0, picked, remaining => by
    intro hfuel _
    have hrem : remaining = [] := List.length_eq_zero.mp (Nat.le_zero.mp hfuel)
    subst hrem
    refine ⟨[], (List.append_nil picked).symm, by simp, List.nodup_nil, ?_⟩
    simp [Nat.max_eq_left (Nat.min_le_right m _)]
  | fuel + 1, picked, remaining => by
    intro hfuel hnd
    unfold pickEdgeLoopAux
    by_cases hcond : ((picked.length : ℚ) < (m : ℚ)) ∧ remaining ≠ []
    · rw [if_pos hcond]
      rcases hmin : argminQ f remaining with _ | i
      · exact absurd hmin (argminQ_ne_none hcond.2)
      · have hi : i ∈ remaining := argminQ_mem hmin
        have hlen : (remaining.erase i).length = remaining.length - 1 :=
          List.length_erase_of_mem hi
        have hfuel2 : (remaining.erase i).length ≤ fuel := by omega
        have hnd2 : (remaining.erase i).Nodup := hnd.erase i
        obtain ⟨ext, heq, hsub, hnde, hlen2⟩ :=
          pickEdgeLoopAux_spec f m fuel (picked ++ [i]) (remaining.erase i) hfuel2 hnd2
        refine ⟨i :: ext, by simpa using heq, ?_, ?_, ?_⟩
        · intro j hj
          rcases List.mem_cons.mp hj with rfl | hj
          · exact hi
          · exact List.mem_of_mem_erase (hsub j hj)
        · refine List.nodup_cons.mpr ⟨?_, hnde⟩
          intro hmem
          exact ((List.Nodup.mem_erase_iff hnd).mp (hsub i hmem)).1 rfl
        · have hplen : picked.length < m := by exact_mod_cast hcond.1
          have hrpos : 0 < remaining.length := List.length_pos.mpr hcond.2
          rw [hlen] at hlen2
          simp only [List.length_append, List.length_singleton, List.length_cons,
            List.length_nil] at hlen2 ⊢
          omega
    · rw [if_neg hcond]
      refine ⟨[], by simp, by simp, List.nodup_nil, ?_⟩
      simp only [List.append_nil]
      rcases not_and_or.mp hcond with hge | hne
      · have hmle : m ≤ picked.length := by
          by_contra hlt
          exact hge (by exact_mod_cast Nat.lt_of_not_le hlt)
        have : min m (picked.length + remaining.length) ≤ picked.length :=
          le_trans (Nat.min_le_left _ _) hmle
        omega
      · have hrem : remaining = [] := not_not.mp hne
        subst hrem
        simp [Nat.max_eq_left (Nat.min_le_right m _)]

/-- Corner phase followed by edge phase: exactly `min m n` distinct in-range
indices, for any corner predicates, corner points and edge score. -/
theorem pickPipeline_spec (cells : List Cell) (m : ℕ) (cP : ℕ → Cell → Bool)
    (cQ : ℕ → ℚ × ℚ) (edgeF : ℕ → ℚ) (hm : 1 ≤ m) :
    (pickEdgeLoop edgeF (m : ℚ)
        ([0, 1, 2, 3].foldl (pickCornerStep cells (m : ℚ) cP cQ)
          ([], List.range cells.length)).1
        ([0, 1, 2, 3].foldl (pickCornerStep cells (m : ℚ) cP cQ)
          ([], List.range cells.length)).2).length = min m cells.length ∧
    (pickEdgeLoop edgeF (m : ℚ)
        ([0, 1, 2, 3].foldl (pickCornerStep cells (m : ℚ) cP cQ)
          ([], List.range cells.length)).1
        ([0, 1, 2, 3].foldl (pickCornerStep cells (m : ℚ) cP cQ)
          ([], List.range cells.length)).2).Nodup ∧
    ∀ i ∈ pickEdgeLoop edgeF (m : ℚ)
        ([0, 1, 2, 3].foldl (pickCornerStep cells (m : ℚ) cP cQ)
          ([], List.range cells.length)).1
        ([0, 1, 2, 3].foldl (pickCornerStep cells (m : ℚ) cP cQ)
          ([], List.range cells.length)).2, i < cells.length := by
  have hperm := pickCornerFold_perm cells (m : ℚ) cP cQ [0, 1, 2, 3]
    ([], List.range cells.length)
  have hlenle := pickCornerFold_length_le cells m cP cQ [0, 1, 2, 3]
    ([], List.range cells.length) (by simp)
  generalize hAC : [0, 1, 2, 3].foldl (pickCornerStep cells (m : ℚ) cP cQ)
    ([], List.range cells.length) = AC at hperm hlenle ⊢
  simp only [List.nil_append] at hperm
  have hnodupAll : (AC.1 ++ AC.2).Nodup := hperm.nodup_iff.mpr (List.nodup_range _)
  have hlensum : AC.1.length + AC.2.length = cells.length := by
    have := hperm.length_eq
    simpa using this
  have hboundAll : ∀ i ∈ AC.1 ++ AC.2, i < cells.length := fun i hi =>
    List.mem_range.mp (hperm.mem_iff.mp hi)
  have hnodup1 : AC.1.Nodup := (List.nodup_append.mp hnodupAll).1
  have hnodup2 : AC.2.Nodup := (List.nodup_append.mp hnodupAll).2.1
  have hdisj := (List.nodup_append.mp hnodupAll).2.2
  have hedge : pickEdgeLoop edgeF (m : ℚ) AC.1 AC.2 =
      pickEdgeLoopAux edgeF (m : ℚ) AC.2.length AC.1 AC.2 := rfl
  obtain ⟨ext, heq, hsub, hnde, hlen2⟩ :=
    pickEdgeLoopAux_spec edgeF m AC.2.length AC.1 AC.2 le_rfl hnodup2
  rw [hedge, heq]
  have hp1m : AC.1.length ≤ m := le_trans hlenle (by omega)
  have hp1n : AC.1.length ≤ cells.length := by omega
  refine ⟨?_, ?_, ?_⟩
  · rw [hlen2, hlensum]
    have : AC.1.length ≤ min m cells.length := le_min hp1m hp1n
    omega
  · refine List.nodup_append.mpr ⟨hnodup1, hnde, ?_⟩
    intro a ha hb
    exact hdisj ha (hsub a hb)
  · intro i hi
    rcases List.mem_append.mp hi with hi | hi
    · exact hboundAll i (List.mem_append.mpr (Or.inl hi))
    · exact hboundAll i (List.mem_append.mpr (Or.inr (hsub i hi)))

/-- The index list returned by the partial selector: exactly `min m n` indices,
no duplicates, all in range. -/
theorem pickCornerEdgePartialIdxs_spec (cells : List Cell) (m : ℕ) (hm : 1 ≤ m)
    (hne : cells ≠ []) :
    (pickCornerEdgePartialIdxs cells (m : ℚ)).length = min m cells.length ∧
    (pickCornerEdgePartialIdxs cells (m : ℚ)).Nodup ∧
    (∀ i ∈ pickCornerEdgePartialIdxs cells (m : ℚ), i < cells.length) := by
  obtain ⟨c0, ctail, rfl⟩ := List.exists_cons_of_ne_nil hne
  unfold pickCornerEdgePartialIdxs
  rw [if_neg (by push_neg; exact_mod_cast hm)]
  exact pickPipeline_spec (c0 :: ctail) m _ _ _ hm

/-- C5: for every nonempty cell list and every required count `r` with
`1 ≤ r < cells.length`, the partial selector returns exactly `r` cells — never
more, never fewer — and they are the cells at `r` pairwise-distinct in-range
indices of the input list (no cell slot is selected twice). -/
theorem pickCornerEdgePartialCells_exact (cells : List Cell) (r : ℕ)
    (h1 : 1 ≤ r) (h2 : r < cells.length) :
    (pickCornerEdgePartialCells cells (r : ℚ)).length = r ∧
    ∃ idxs : List ℕ, pickCornerEdgePartialCells cells (r : ℚ) =
        idxs.map (fun i => cells.getD i dummyCell) ∧
      idxs.length = r ∧ idxs.Nodup ∧ ∀ i ∈ idxs, i < cells.length := by
  have hne : cells ≠ [] := by
    intro h
    rw [h] at h2
    simp at h2
  obtain ⟨hlen, hnd, hbound⟩ := pickCornerEdgePartialIdxs_spec cells r h1 hne
  have hmin : min r cells.length = r := Nat.min_eq_left (le_of_lt h2)
  refine ⟨?_, pickCornerEdgePartialIdxs cells (r : ℚ), rfl, by rw [hlen, hmin], hnd, hbound⟩
  unfold pickCornerEdgePartialCells
  rw [List.length_map, hlen, hmin]

/-- Witness for C5 at a concrete 2-cell layer asking for 1 cell. -/
theorem pickCornerEdgePartialCells_exact_witness :
    ((1 : ℕ) ≤ 1 ∧ 1 < ([⟨0, 0, ⟨1, 1, 0⟩⟩, ⟨1, 0, ⟨1, 1, 0⟩⟩] : List Cell).length) ∧
    ((pickCornerEdgePartialCells [⟨0, 0, ⟨1, 1, 0⟩⟩, ⟨1, 0, ⟨1, 1, 0⟩⟩] ((1 : ℕ) : ℚ)).length = 1 ∧
      ∃ idxs : List ℕ, pickCornerEdgePartialCells [⟨0, 0, ⟨1, 1, 0⟩⟩, ⟨1, 0, ⟨1, 1, 0⟩⟩] ((1 : ℕ) : ℚ) =
          idxs.map (fun i => ([⟨0, 0, ⟨1, 1, 0⟩⟩, ⟨1, 0, ⟨1, 1, 0⟩⟩] : List Cell).getD i dummyCell) ∧
        idxs.length = 1 ∧ idxs.Nodup ∧
        ∀ i ∈ idxs, i < ([⟨0, 0, ⟨1, 1, 0⟩⟩, ⟨1, 0, ⟨1, 1, 0⟩⟩] : List Cell).length) :=
  ⟨⟨le_refl 1, by decide⟩,
    pickCornerEdgePartialCells_exact [⟨0, 0, ⟨1, 1, 0⟩⟩, ⟨1, 0, ⟨1, 1, 0⟩⟩] 1
      (le_refl 1) (by decide)⟩

/-! ### C3: target distribution by full layers -/

/-- Closed form for the layer count assigned to pallet `i` (spec §4.5): base
layers `⌊⌊Q/K⌋/P⌋`, plus one extra layer for the first `⌊Q/K⌋ mod P` pallets,
clamped to `≤ L`. -/
def targetLayersSpec (Q P K L i : ℕ) : ℕ :=
  min (Q / K / P + if i < Q / K % P then 1 else 0) L

/-- Closed form for the box-count target of pallet `i`: layer count times `K`,
plus the whole remainder `Q mod K` on the last pallet. -/
def targetCountSpec (Q P K L i : ℕ) : ℕ :=
  K * targetLayersSpec Q P K L i + if 0 < Q % K ∧ i = P - 1 then Q % K else 0

theorem sum_indicator_lt (e : ℕ) : ∀ P : ℕ,
    (∑ i in Finset.range P, if i < e then 1 else 0) = min e P
  | 0 => by simp
  | P + 1 => by
    rw [Finset.sum_range_succ, sum_indicator_lt e P]
    by_cases h : P < e
    · rw [if_pos h]
      omega
    · rw [if_neg h]
      omega

/-- Total full layers fit in `P * L` layers when `Q ≤ P*K*L`. -/
theorem totalFullLayers_le (Q P K L : ℕ) (hK : 1 ≤ K) (hcap : Q ≤ P * K * L) :
    Q / K ≤ P * L := by
  have h1 : Q / K ≤ P * K * L / K := Nat.div_le_div_right hcap
  have h2 : P * K * L = K * (P * L) := by ring
  rw [h2, Nat.mul_div_cancel_left _ hK] at h1
  exact h1

/-- When the box remainder is positive, the base layer count is `< L`, so the
clamp in `targetLayersSpec` is inactive and the last pallet has spare layers. -/
theorem baseLayers_lt_of_rem_pos (Q P K L : ℕ) (hP : 1 ≤ P) (hK : 1 ≤ K)
    (hcap : Q ≤ P * K * L) (hrem : 0 < Q % K) : Q / K / P < L := by
  have hTFL : Q / K ≤ P * L := totalFullLayers_le Q P K L hK hcap
  have hdm := Nat.div_add_mod Q K
  have hmul : P * K * L = K * (P * L) := by ring
  have hTFLlt : Q / K < P * L := by
    rcases Nat.lt_or_ge (Q / K) (P * L) with h | h
    · exact h
    · have heq : Q / K = P * L := le_antisymm hTFL h
      rw [heq] at hdm
      omega
  rw [Nat.div_lt_iff_lt_mul hP, mul_comm L P]
  exact hTFLlt

/-- The clamp to `L` in `targetLayersSpec` never bites. -/
theorem targetLayersSpec_eq (Q P K L : ℕ) (hP : 1 ≤ P) (hK : 1 ≤ K) (hL : 1 ≤ L)
    (hcap : Q ≤ P * K * L) (i : ℕ) :
    targetLayersSpec Q P K L i = Q / K / P + if i < Q / K % P then 1 else 0 := by
  unfold targetLayersSpec
  apply Nat.min_eq_left
  have hTFL : Q / K ≤ P * L := totalFullLayers_le Q P K L hK hcap
  by_cases h : i < Q / K % P
  · rw [if_pos h]
    have hextra : 0 < Q / K % P := Nat.lt_of_le_of_lt (Nat.zero_le i) h
    have hlt : Q / K < P * L := by
      rcases Nat.lt_or_ge (Q / K) (P * L) with hlt | hge
      · exact hlt
      · exfalso
        have heq : Q / K = P * L := le_antisymm hTFL hge
        have hmod : Q / K % P = 0 := by
          rw [heq]
          exact Nat.mul_mod_right P L
        omega
    have hbase : Q / K / P < L := by
      rw [Nat.div_lt_iff_lt_mul hP, mul_comm L P]
      exact hlt
    omega
  · rw [if_neg h]
    have hdivle : Q / K / P ≤ P * L / P := Nat.div_le_div_right hTFL
    rw [Nat.mul_div_cancel_left _ hP] at hdivle
    omega

/-- Sum of the closed-form layer counts: all `⌊Q/K⌋` full layers are assigned. -/
theorem targetLayersSpec_sum (Q P K L : ℕ) (hP : 1 ≤ P) (hK : 1 ≤ K) (hL : 1 ≤ L)
    (hcap : Q ≤ P * K * L) :
    (∑ i in Finset.range P, targetLayersSpec Q P K L i) = Q / K := by
  have hsum : (∑ i in Finset.range P, targetLayersSpec Q P K L i) =
      ∑ i in Finset.range P, (Q / K / P + if i < Q / K % P then 1 else 0) :=
    Finset.sum_congr rfl (fun i _ => targetLayersSpec_eq Q P K L hP hK hL hcap i)
  rw [hsum, Finset.sum_add_distrib, Finset.sum_const, Finset.card_range,
    sum_indicator_lt]
  have hlt : Q / K % P < P := Nat.mod_lt _ hP
  rw [Nat.min_eq_left (le_of_lt hlt), smul_eq_mul]
  have hdm := Nat.div_add_mod (Q / K) P
  omega

/-- Sum of the closed-form targets: exactly `Q` boxes are assigned. -/
theorem targetCountSpec_sum (Q P K L : ℕ) (hP : 1 ≤ P) (hK : 1 ≤ K) (hL : 1 ≤ L)
    (hcap : Q ≤ P * K * L) :
    (∑ i in Finset.range P, targetCountSpec Q P K L i) = Q := by
  unfold targetCountSpec
  rw [Finset.sum_add_distrib]
  have h1 : (∑ i in Finset.range P, K * targetLayersSpec Q P K L i) = K * (Q / K) := by
    rw [← Finset.mul_sum, targetLayersSpec_sum Q P K L hP hK hL hcap]
  have h2 : (∑ i in Finset.range P, if 0 < Q % K ∧ i = P - 1 then Q % K else 0) = Q % K := by
    by_cases hrem : 0 < Q % K
    · have hcongr : ∀ i, (if 0 < Q % K ∧ i = P - 1 then Q % K else 0) =
          (if i = P - 1 then Q % K else 0) := by
        intro i
        by_cases hi : i = P - 1 <;> simp [hi, hrem]
      rw [Finset.sum_congr rfl (fun i _ => hcongr i),
        Finset.sum_ite_eq' (Finset.range P) (P - 1) (fun _ => Q % K),
        if_pos (Finset.mem_range.mpr (by omega))]
    · have h0 : Q % K = 0 := by omega
      simp [h0]
  rw [h1, h2]
  exact Nat.div_add_mod Q K

/-- Each closed-form target is bounded by the per-pallet capacity `K*L`. -/
theorem targetCountSpec_le (Q P K L : ℕ) (hP : 1 ≤ P) (hK : 1 ≤ K) (hL : 1 ≤ L)
    (hcap : Q ≤ P * K * L) (i : ℕ) : targetCountSpec Q P K L i ≤ K * L := by
  unfold targetCountSpec
  by_cases hc : 0 < Q % K ∧ i = P - 1
  · rw [if_pos hc]
    obtain ⟨hrem, hi⟩ := hc
    have hbase : Q / K / P < L := baseLayers_lt_of_rem_pos Q P K L hP hK hcap hrem
    have hind : ¬ (i < Q / K % P) := by
      have := Nat.mod_lt (Q / K) hP
      omega
    rw [targetLayersSpec_eq Q P K L hP hK hL hcap i, if_neg hind]
    have hremlt : Q % K < K := Nat.mod_lt _ hK
    obtain ⟨l, rfl⟩ : ∃ l, L = l + 1 := ⟨L - 1, by omega⟩
    have hb : K * (Q / K / P) ≤ K * l := Nat.mul_le_mul_left _ (by omega)
    have hKL : K * l + K = K * (l + 1) := by ring
    calc K * (Q / K / P) + Q % K ≤ K * l + Q % K := by omega
      _ ≤ K * l + (K - 1) := by omega
      _ ≤ K * (l + 1) := by omega
  · rw [if_neg hc, Nat.add_zero]
    exact Nat.mul_le_mul_left _ (Nat.min_le_right _ _)

theorem floor_div_cast (Q K : ℕ) : ⌊(Q : ℚ) / (((K : ℤ)) : ℚ)⌋ = ((Q / K : ℕ) : ℤ) := by
  push_cast
  rw [Rat.floor_natCast_div_natCast]

theorem fdiv_natCast (m n : ℕ) : Int.fdiv (m : ℤ) (n : ℤ) = ((m / n : ℕ) : ℤ) :=
  (Int.ofNat_fdiv m n).symm

theorem tmod_natCast (m n : ℕ) : Int.tmod (m : ℤ) (n : ℤ) = ((m % n : ℕ) : ℤ) := rfl

theorem jsMod_natCast (Q K : ℕ) : jsMod (Q : ℚ) (((K : ℤ)) : ℚ) = ((Q % K : ℕ) : ℚ) := by
  rcases Nat.eq_zero_or_pos K with hK | hK
  · subst hK
    simp [jsMod, jsTrunc]
  · unfold jsMod jsTrunc
    have hnn : (0 : ℚ) ≤ (Q : ℚ) / (((K : ℤ)) : ℚ) := by positivity
    rw [if_pos hnn, floor_div_cast]
    have hdm := Nat.div_add_mod Q K
    have hcast : (K : ℚ) * ((Q / K : ℕ) : ℚ) + ((Q % K : ℕ) : ℚ) = (Q : ℚ) := by
      exact_mod_cast hdm
    simp only [Int.cast_natCast]
    linarith

theorem getD_map_range {α : Type} (n i : ℕ) (d : α) (f : ℕ → α) (h : i < n) :
    ((List.range n).map f).getD i d = f i := by
  rw [List.getD_eq_getElem _ _ (by simpa using h)]
  simp

/-- A fold whose step fixes states with zero remainder is the identity from a
zero-remainder state. -/
theorem foldl_zero_rem (f : List ℚ × ℚ → ℕ → List ℚ × ℚ)
    (hf : ∀ counts i, f (counts, 0) i = (counts, 0)) :
    ∀ (l : List ℕ) (counts : List ℚ), l.foldl f (counts, 0) = (counts, 0)
  | [], counts => rfl
  | i :: t, counts => by
    rw [List.foldl_cons, hf counts i]
    exact foldl_zero_rem f hf t counts

/-- The closed-form target list (the spec side of C3). -/
def targetsSpecList (Q P K L : ℕ) : List ℚ :=
  (List.range P).map (fun i => ((targetCountSpec Q P K L i : ℕ) : ℚ))

theorem targetsLayersList_eq (Q P K L : ℕ) :
    targetsLayersList ((Q / K : ℕ) : ℤ) ((P : ℕ) : ℤ) ((L : ℕ) : ℤ) =
      (List.range P).map (fun i => ((targetLayersSpec Q P K L i : ℕ) : ℤ)) := by
  unfold targetsLayersList targetLayersSpec
  rw [fdiv_natCast, tmod_natCast, Int.toNat_natCast]
  apply List.map_congr_left
  intro i hi
  have hcond : ((((i : ℕ)) : ℤ) < ((Q / K % P : ℕ) : ℤ)) ↔ (i < Q / K % P) := Nat.cast_lt
  by_cases h : i < Q / K % P
  · rw [if_pos (hcond.mpr h), if_pos h]
    push_cast
    rfl
  · rw [if_neg (fun hc => h (hcond.mp hc)), if_neg h]
    push_cast
    rfl

theorem counts0_eq (Q P K L : ℕ) :
    (targetsLayersList ((Q / K : ℕ) : ℤ) ((P : ℕ) : ℤ) ((L : ℕ) : ℤ)).map
        (fun l => ((l * ((K : ℕ) : ℤ) : ℤ) : ℚ)) =
      (List.range P).map (fun i => ((K * targetLayersSpec Q P K L i : ℕ) : ℚ)) := by
  rw [targetsLayersList_eq, List.map_map]
  apply List.map_congr_left
  intro i hi
  simp only [Function.comp_apply]
  push_cast
  ring

theorem targetsSpecList_sum (Q P K L : ℕ) (hP : 1 ≤ P) (hK : 1 ≤ K) (hL : 1 ≤ L)
    (hcap : Q ≤ P * K * L) : (targetsSpecList Q P K L).sum = (Q : ℚ) := by
  have hbridge : (targetsSpecList Q P K L).sum =
      ∑ i in Finset.range P, ((targetCountSpec Q P K L i : ℕ) : ℚ) := rfl
  rw [hbridge, ← Nat.cast_sum, targetCountSpec_sum Q P K L hP hK hL hcap]

theorem spreadStep_zero (K : ℤ) (counts : List ℚ) (i : ℕ) :
    spreadStep K (counts, 0) i = (counts, 0) := by
  unfold spreadStep
  norm_num

theorem spreadLeftover_zero (K pallets : ℤ) (counts : List ℚ) :
    spreadLeftover K pallets (counts, 0) = (counts, 0) :=
  foldl_zero_rem (spreadStep K) (spreadStep_zero K) _ counts

theorem reconcile_of_sum_eq (total : ℚ) (counts : List ℚ) (n : ℕ)
    (h : counts.sum = total) : reconcile total counts n = counts := by
  unfold reconcile
  rw [h]
  norm_num

/-- With a positive box remainder, the backward search finds the last pallet
(its layer count is below `L`) and the whole remainder lands there. -/
theorem placeRemainder_eq (Q P K L : ℕ) (hP : 1 ≤ P) (hK : 1 ≤ K) (hL : 1 ≤ L)
    (hcap : Q ≤ P * K * L) (hrem : 0 < Q % K) :
    placeRemainder
        ((List.range P).map (fun i => ((K * targetLayersSpec Q P K L i : ℕ) : ℚ)))
        (targetsLayersList ((Q / K : ℕ) : ℤ) ((P : ℕ) : ℤ) ((L : ℕ) : ℤ))
        ((Q % K : ℕ) : ℚ) ((L : ℕ) : ℤ) ((P : ℕ) : ℤ) =
      (targetsSpecList Q P K L, 0) := by
  obtain ⟨p, rfl⟩ : ∃ p, P = p + 1 := ⟨P - 1, by omega⟩
  unfold placeRemainder
  rw [if_pos (by exact_mod_cast hrem), Int.toNat_natCast, targetsLayersList_eq]
  have hbase : Q / K / (p + 1) < L := baseLayers_lt_of_rem_pos Q (p + 1) K L hP hK hcap hrem
  have hlayerp : targetLayersSpec Q (p + 1) K L p = Q / K / (p + 1) := by
    rw [targetLayersSpec_eq Q (p + 1) K L hP hK hL hcap p]
    have hmod : Q / K % (p + 1) < p + 1 := Nat.mod_lt _ hP
    rw [if_neg (by omega)]
    omega
  have hfind : (List.range (p + 1)).reverse.find?
      (fun i => decide (((List.range (p + 1)).map
        (fun i => ((targetLayersSpec Q (p + 1) K L i : ℕ) : ℤ))).getD i 0 < ((L : ℕ) : ℤ))) =
      some p := by
    have hrev : (List.range (p + 1)).reverse = p :: (List.range p).reverse := by
      rw [List.range_succ]
      simp
    rw [hrev]
    apply List.find?_cons_of_pos
    rw [getD_map_range _ _ _ _ (by omega)]
    simp only [decide_eq_true_eq]
    rw [hlayerp]
    exact_mod_cast hbase
  rw [hfind]
  refine Prod.ext ?_ rfl
  simp only
  apply List.ext_getElem
  · simp [targetsSpecList]
  · intro i h1 h2
    have hiP : i < p + 1 := by simpa [targetsSpecList] using h2
    rw [List.getElem_set]
    unfold targetsSpecList
    by_cases hip : p = i
    · subst hip
      rw [if_pos rfl]
      rw [List.getD_eq_getElem _ _ (by simpa using hiP)]
      simp only [List.getElem_map, List.getElem_range]
      unfold targetCountSpec
      rw [if_pos ⟨hrem, by omega⟩]
      push_cast
      ring
    · rw [if_neg hip]
      simp only [List.getElem_map, List.getElem_range]
      unfold targetCountSpec
      rw [if_neg (by omega)]
      push_cast
      ring

/-- C3 core: under the reachable hypotheses (`Q ≤ P*K*L`, all parameters
positive) `buildTargetsByFullLayers` returns exactly the closed-form targets:
evenly spread full layers (first `⌊Q/K⌋ mod P` pallets one extra, clamped to
`L`) times `K`, plus the whole remainder `Q mod K` on the last pallet. -/
theorem buildTargetsByFullLayers_eq (Q P K L : ℕ) (hP : 1 ≤ P) (hK : 1 ≤ K) (hL : 1 ≤ L)
    (hcap : Q ≤ P * K * L) :
    buildTargetsByFullLayers (Q : ℚ) ((P : ℕ) : ℤ) ((K : ℕ) : ℤ) ((L : ℕ) : ℤ) =
      targetsSpecList Q P K L := by
  unfold buildTargetsByFullLayers
  simp only [floor_div_cast, jsMod_natCast, Int.toNat_natCast]
  rw [counts0_eq]
  by_cases hrem : 0 < Q % K
  · rw [placeRemainder_eq Q P K L hP hK hL hcap hrem, spreadLeftover_zero]
    exact reconcile_of_sum_eq _ _ _ (targetsSpecList_sum Q P K L hP hK hL hcap)
  · have h0 : Q % K = 0 := by omega
    have hspec : (List.range P).map
        (fun i => ((K * targetLayersSpec Q P K L i : ℕ) : ℚ)) = targetsSpecList Q P K L := by
      apply List.map_congr_left
      intro i hi
      unfold targetCountSpec
      rw [if_neg (by omega), Nat.add_zero]
    have hplace : placeRemainder (targetsSpecList Q P K L)
        (targetsLayersList ((Q / K : ℕ) : ℤ) ((P : ℕ) : ℤ) ((L : ℕ) : ℤ))
        ((Q % K : ℕ) : ℚ) ((L : ℕ) : ℤ) ((P : ℕ) : ℤ) = (targetsSpecList Q P K L, 0) := by
      unfold placeRemainder
      rw [h0]
      norm_num
    rw [hspec, hplace, spreadLeftover_zero]
    exact reconcile_of_sum_eq _ _ _ (targetsSpecList_sum Q P K L hP hK hL hcap)

/-- C3: for every total `Q ≥ 1`, pallet count `P ≥ 1`, per-layer capacity
`K ≥ 1` and max layers `L ≥ 1` with `Q ≤ P*K*L`, `buildTargetsByFullLayers`
returns exactly `P` targets whose sum is exactly `Q`, each target `≤ K*L`; the
targets are the closed form `targetsSpecList`: `⌊Q/K⌋` full layers spread as
evenly as possible (`⌊⌊Q/K⌋/P⌋` per pallet, the first `⌊Q/K⌋ mod P` pallets one
extra, clamped to `≤ L`), converted to box counts (`×K`), with the remainder
`Q mod K` added entirely onto the last pallet — which still has spare layer
capacity whenever the remainder is positive. -/
theorem buildTargetsByFullLayers_spec (Q P K L : ℕ) (hQ : 1 ≤ Q) (hP : 1 ≤ P)
    (hK : 1 ≤ K) (hL : 1 ≤ L) (hcap : Q ≤ P * K * L) :
    (buildTargetsByFullLayers (Q : ℚ) ((P : ℕ) : ℤ) ((K : ℕ) : ℤ) ((L : ℕ) : ℤ)).length = P ∧
    (buildTargetsByFullLayers (Q : ℚ) ((P : ℕ) : ℤ) ((K : ℕ) : ℤ) ((L : ℕ) : ℤ)).sum = (Q : ℚ) ∧
    (∀ t ∈ buildTargetsByFullLayers (Q : ℚ) ((P : ℕ) : ℤ) ((K : ℕ) : ℤ) ((L : ℕ) : ℤ),
      t ≤ ((K * L : ℕ) : ℚ)) ∧
    buildTargetsByFullLayers (Q : ℚ) ((P : ℕ) : ℤ) ((K : ℕ) : ℤ) ((L : ℕ) : ℤ) =
      targetsSpecList Q P K L ∧
    (0 < Q % K → targetLayersSpec Q P K L (P - 1) < L) := by
  have heq := buildTargetsByFullLayers_eq Q P K L hP hK hL hcap
  refine ⟨?_, ?_, ?_, heq, ?_⟩
  · rw [heq]
    simp [targetsSpecList]
  · rw [heq]
    exact targetsSpecList_sum Q P K L hP hK hL hcap
  · rw [heq]
    intro t ht
    unfold targetsSpecList at ht
    obtain ⟨i, hi, rfl⟩ := List.mem_map.mp ht
    exact_mod_cast targetCountSpec_le Q P K L hP hK hL hcap i
  · intro hrem
    have hbase : Q / K / P < L := baseLayers_lt_of_rem_pos Q P K L hP hK hcap hrem
    rw [targetLayersSpec_eq Q P K L hP hK hL hcap (P - 1)]
    have hmod : Q / K % P < P := Nat.mod_lt _ hP
    rw [if_neg (by omega)]
    omega

/-- Witness for C3 at `Q = 5`, `P = 2`, `K = 2`, `L = 2`. -/
theorem buildTargetsByFullLayers_spec_witness :
    ((1 : ℕ) ≤ 5 ∧ 1 ≤ 2 ∧ 5 ≤ 2 * 2 * 2) ∧
    ((buildTargetsByFullLayers ((5 : ℕ) : ℚ) ((2 : ℕ) : ℤ) ((2 : ℕ) : ℤ) ((2 : ℕ) : ℤ)).length = 2 ∧
      (buildTargetsByFullLayers ((5 : ℕ) : ℚ) ((2 : ℕ) : ℤ) ((2 : ℕ) : ℤ) ((2 : ℕ) : ℤ)).sum = ((5 : ℕ) : ℚ) ∧
      (∀ t ∈ buildTargetsByFullLayers ((5 : ℕ) : ℚ) ((2 : ℕ) : ℤ) ((2 : ℕ) : ℤ) ((2 : ℕ) : ℤ),
        t ≤ ((2 * 2 : ℕ) : ℚ)) ∧
      buildTargetsByFullLayers ((5 : ℕ) : ℚ) ((2 : ℕ) : ℤ) ((2 : ℕ) : ℤ) ((2 : ℕ) : ℤ) =
        targetsSpecList 5 2 2 2 ∧
      (0 < 5 % 2 → targetLayersSpec 5 2 2 2 (2 - 1) < 2)) :=
  ⟨⟨by norm_num, by norm_num, by norm_num⟩,
    buildTargetsByFullLayers_spec 5 2 2 2 (by norm_num) (by norm_num) (by norm_num)
      (by norm_num) (by norm_num)⟩

/-- Witness for C4 at a concrete input (1×1 box on a 1×1 deck). -/
theorem chooseBestLayerPattern_lex_argmax_witness :
    chooseBestLayerPattern 1 1 ⟨1, 1, 0⟩ ⟨1, 1, 90⟩ 1 =
      some (buildGridPattern 1 1 ⟨1, 1, 0⟩) ∧
    (buildGridPattern 1 1 ⟨1, 1, 0⟩ ∈ viableLayerPatterns 1 1 ⟨1, 1, 0⟩ ⟨1, 1, 90⟩ ∧
      (∀ c ∈ viableLayerPatterns 1 1 ⟨1, 1, 0⟩ ⟨1, 1, 90⟩,
        jsLexGT (scoreTuple 1 c) (scoreTuple 1 (buildGridPattern 1 1 ⟨1, 1, 0⟩)) = false) ∧
      ∃ pre post, viableLayerPatterns 1 1 ⟨1, 1, 0⟩ ⟨1, 1, 90⟩ =
          pre ++ buildGridPattern 1 1 ⟨1, 1, 0⟩ :: post ∧
        ∀ c ∈ pre, jsLexGT (scoreTuple 1 (buildGridPattern 1 1 ⟨1, 1, 0⟩))
          (scoreTuple 1 c) = true) :=
  ⟨by with_unfolding_all decide,
    chooseBestLayerPattern_lex_argmax 1 1 ⟨1, 1, 0⟩ ⟨1, 1, 90⟩ 1 _
      (by with_unfolding_all decide)⟩

/-! ### Pattern well-formedness: facts about every built candidate -/

/-- Shape facts about every pattern produced by the builders: block columns
and rows are nonnegative, every block footprint is one of the two input
orientations, and the per-layer capacity counts the block cells, with the
block list matching the pattern kind. -/
def PatternWF (a b : Footprint) (p : LayerPattern) : Prop :=
  (∀ blk ∈ p.blocks, 0 ≤ blk.cols ∧ 0 ≤ blk.rows ∧ (blk.fp = a ∨ blk.fp = b)) ∧
  ((p.kind = .grid ∧ ∃ blk, p.blocks = [blk] ∧
      p.perLayer = max 0 blk.cols * max 0 blk.rows) ∨
   ((p.kind = .splitX ∨ p.kind = .splitZ) ∧ ∃ b1 b2, p.blocks = [b1, b2] ∧
      p.perLayer = b1.cols * b1.rows + b2.cols * b2.rows))

theorem gridBlockCells_length (blk : LayerBlock) (ox oz : ℚ) :
    (gridBlockCells blk ox oz).length = blk.rows.toNat * blk.cols.toNat := by
  unfold gridBlockCells
  rw [List.length_flatMap]
  simp only [Function.comp_def, List.length_map, List.map_const, List.sum_replicate,
    smul_eq_mul, List.length_range, List.map_const']

theorem gridBlockCells_fp (blk : LayerBlock) (ox oz : ℚ) :
    ∀ c ∈ gridBlockCells blk ox oz, c.fp = blk.fp := by
  intro c hc
  unfold gridBlockCells at hc
  simp only [List.mem_flatMap, List.mem_map, List.mem_range] at hc
  obtain ⟨r, -, c', -, rfl⟩ := hc
  rfl

theorem floor_nonneg_of_nonneg_of_pos {x y : ℚ} (hx : 0 ≤ x) (hy : 0 < y) :
    0 ≤ ⌊x / y⌋ := by
  apply Int.floor_nonneg.mpr
  positivity

theorem buildGridPattern_wf {W D : ℚ} {a b fp : Footprint} (hW : 0 < W) (hD : 0 < D)
    (hlen : 0 < fp.len) (hwid : 0 < fp.wid) (hfp : fp = a ∨ fp = b) :
    PatternWF a b (buildGridPattern W D fp) := by
  unfold buildGridPattern PatternWF
  constructor
  · intro blk hblk
    simp only [List.mem_singleton] at hblk
    subst hblk
    exact ⟨floor_nonneg_of_nonneg_of_pos hW.le hlen,
      floor_nonneg_of_nonneg_of_pos hD.le hwid, hfp⟩
  · exact Or.inl ⟨rfl, _, rfl, rfl⟩

theorem buildSplitXAux_wf {W D : ℚ} {a b left right : Footprint} (hD : 0 < D)
    (hleft : 0 < left.len ∧ 0 < left.wid) (hright : 0 < right.len ∧ 0 < right.wid)
    (hl : left = a ∨ left = b) (hr : right = a ∨ right = b) :
    ∀ (cL fuel : ℕ) (p : LayerPattern), p ∈ buildSplitXAux W D left right cL fuel →
      PatternWF a b p := by
  intro cL fuel
  induction fuel generalizing cL with
  | zero => intro p hp; cases hp
  | succ fuel ih =>
    intro p hp
    unfold buildSplitXAux at hp
    by_cases hrem : W - (cL : ℚ) * left.len < 0
    · rw [if_pos hrem] at hp; cases hp
    · rw [if_neg hrem] at hp
      rcases List.mem_cons.mp hp with rfl | hp
      · push_neg at hrem
        refine ⟨?_, Or.inr ⟨Or.inl rfl, _, _, rfl, rfl⟩⟩
        intro blk hblk
        rcases List.mem_cons.mp hblk with rfl | hblk
        · exact ⟨Int.ofNat_nonneg cL, floor_nonneg_of_nonneg_of_pos hD.le hleft.2, hl⟩
        · simp only [List.mem_singleton] at hblk
          subst hblk
          exact ⟨floor_nonneg_of_nonneg_of_pos hrem hright.1,
            floor_nonneg_of_nonneg_of_pos hD.le hright.2, hr⟩
      · exact ih (cL + 1) p hp

theorem buildSplitZAux_wf {W D : ℚ} {a b front back : Footprint} (hW : 0 < W)
    (hfront : 0 < front.len ∧ 0 < front.wid) (hback : 0 < back.len ∧ 0 < back.wid)
    (hf : front = a ∨ front = b) (hb : back = a ∨ back = b) :
    ∀ (rF fuel : ℕ) (p : LayerPattern), p ∈ buildSplitZAux W D front back rF fuel →
      PatternWF a b p := by
  intro rF fuel
  induction fuel generalizing rF with
  | zero => intro p hp; cases hp
  | succ fuel ih =>
    intro p hp
    unfold buildSplitZAux at hp
    by_cases hrem : D - (rF : ℚ) * front.wid < 0
    · rw [if_pos hrem] at hp; cases hp
    · rw [if_neg hrem] at hp
      rcases List.mem_cons.mp hp with rfl | hp
      · push_neg at hrem
        refine ⟨?_, Or.inr ⟨Or.inr rfl, _, _, rfl, by ring⟩⟩
        intro blk hblk
        rcases List.mem_cons.mp hblk with rfl | hblk
        · exact ⟨floor_nonneg_of_nonneg_of_pos hW.le hfront.1, Int.ofNat_nonneg rF, hf⟩
        · simp only [List.mem_singleton] at hblk
          subst hblk
          exact ⟨floor_nonneg_of_nonneg_of_pos hW.le hback.1,
            floor_nonneg_of_nonneg_of_pos hrem hback.2, hb⟩
      · exact ih (rF + 1) p hp

/-- Every candidate pattern is well formed (positive deck and positive box
dimensions). -/
theorem layerPatternCandidates_wf {W D : ℚ} {a b : Footprint} (hW : 0 < W) (hD : 0 < D)
    (ha : 0 < a.len ∧ 0 < a.wid) (hb : 0 < b.len ∧ 0 < b.wid) :
    ∀ p ∈ layerPatternCandidates W D a b, PatternWF a b p := by
  intro p hp
  unfold layerPatternCandidates at hp
  simp only [List.cons_append, List.nil_append, List.mem_cons, List.mem_append,
    or_assoc] at hp
  rcases hp with rfl | rfl | hp | hp | hp | hp
  · exact buildGridPattern_wf hW hD ha.1 ha.2 (Or.inl rfl)
  · exact buildGridPattern_wf hW hD hb.1 hb.2 (Or.inr rfl)
  · exact buildSplitXAux_wf hD ha hb (Or.inl rfl) (Or.inr rfl) _ _ p hp
  · exact buildSplitXAux_wf hD hb ha (Or.inr rfl) (Or.inl rfl) _ _ p hp
  · exact buildSplitZAux_wf hW ha hb (Or.inl rfl) (Or.inr rfl) _ _ p hp
  · exact buildSplitZAux_wf hW hb ha (Or.inr rfl) (Or.inl rfl) _ _ p hp

/-- The chosen pattern is a candidate, hence well formed. -/
theorem chooseBestLayerPattern_wf {W D : ℚ} {a b : Footprint} {q : ℚ} {p : LayerPattern}
    (hW : 0 < W) (hD : 0 < D) (ha : 0 < a.len ∧ 0 < a.wid) (hb : 0 < b.len ∧ 0 < b.wid)
    (h : chooseBestLayerPattern W D a b q = some p) : PatternWF a b p := by
  have hmem := chooseBestLayerPattern_mem_viable h
  unfold viableLayerPatterns at hmem
  exact layerPatternCandidates_wf hW hD ha hb p (List.mem_of_mem_filter hmem)

/-- A well-formed pattern materializes into exactly `perLayer` cells. -/
theorem materializeLayerCells_length {a b : Footprint} {p : LayerPattern}
    (hwf : PatternWF a b p) (W D : ℚ) :
    (materializeLayerCells p W D).length = p.perLayer.toNat := by
  obtain ⟨hblk, hkind⟩ := hwf
  unfold materializeLayerCells
  rcases hkind with ⟨hk, blk, hbl, hper⟩ | ⟨hk, b1, b2, hbl, hper⟩
  · rw [hk, hbl]
    simp only
    rw [gridBlockCells_length]
    obtain ⟨hc, hr, -⟩ := hblk blk (hbl ▸ List.mem_singleton.mpr rfl)
    rw [hper, max_eq_right hc, max_eq_right hr]
    obtain ⟨cn, hcn⟩ := Int.eq_ofNat_of_zero_le hc
    obtain ⟨rn, hrn⟩ := Int.eq_ofNat_of_zero_le hr
    rw [hcn, hrn]
    simp only [← Nat.cast_mul, Int.toNat_natCast]
    ring
  · obtain ⟨h1c, h1r, -⟩ := hblk b1 (hbl ▸ List.mem_cons_self _ _)
    obtain ⟨h2c, h2r, -⟩ := hblk b2 (hbl ▸ List.mem_cons_of_mem _ (List.mem_singleton.mpr rfl))
    obtain ⟨c1, hc1⟩ := Int.eq_ofNat_of_zero_le h1c
    obtain ⟨r1, hr1⟩ := Int.eq_ofNat_of_zero_le h1r
    obtain ⟨c2, hc2⟩ := Int.eq_ofNat_of_zero_le h2c
    obtain ⟨r2, hr2⟩ := Int.eq_ofNat_of_zero_le h2r
    rcases hk with hk | hk <;>
    · rw [hk, hbl]
      simp only [List.length_append]
      rw [gridBlockCells_length, gridBlockCells_length, hper, hc1, hr1, hc2, hr2]
      simp only [← Nat.cast_mul, ← Nat.cast_add, Int.toNat_natCast]
      ring

/-- Every materialized cell carries one of the two input footprints. -/
theorem materializeLayerCells_fp {a b : Footprint} {p : LayerPattern}
    (hwf : PatternWF a b p) (W D : ℚ) :
    ∀ c ∈ materializeLayerCells p W D, c.fp = a ∨ c.fp = b := by
  obtain ⟨hblk, hkind⟩ := hwf
  intro c hc
  unfold materializeLayerCells at hc
  rcases hkind with ⟨hk, blk, hbl, -⟩ | ⟨hk, b1, b2, hbl, -⟩
  · rw [hk, hbl] at hc
    simp only at hc
    rw [gridBlockCells_fp _ _ _ c hc]
    exact (hblk blk (hbl ▸ List.mem_singleton.mpr rfl)).2.2
  · rcases hk with hk | hk <;>
    · rw [hk, hbl] at hc
      simp only [List.mem_append] at hc
      rcases hc with hc | hc
      · rw [gridBlockCells_fp _ _ _ c hc]
        exact (hblk b1 (hbl ▸ List.mem_cons_self _ _)).2.2
      · rw [gridBlockCells_fp _ _ _ c hc]
        exact (hblk b2 (hbl ▸ List.mem_cons_of_mem _ (List.mem_singleton.mpr rfl))).2.2

/-! ### Success-path shape of performCalc -/

/-- If `performCalc` returns no error, all guards passed and the result equals
`performCalcCore` at the aggregated base box, the chosen pattern and the
computed maximal layer count. -/
theorem performCalc_success_shape {boxes : List BoxType} {pallet : PalletConfig}
    (h : (performCalc boxes pallet).error = none) :
    ∃ b0 rest pattern,
      validBoxes boxes = b0 :: rest ∧
      ¬(pallet.width ≤ 0 ∨ pallet.depth ≤ 0 ∨ pallet.maxHeight ≤ pallet.height) ∧
      chooseBestLayerPattern pallet.width pallet.depth
        ⟨b0.length, b0.width, 0⟩ ⟨b0.width, b0.length, 90⟩
        (((b0 :: rest).map BoxType.quantity).sum) = some pattern ∧
      pattern.perLayer ≠ 0 ∧
      0 < ⌊((pallet.maxHeight - pallet.height) + EPS) / b0.height⌋ ∧
      performCalc boxes pallet =
        performCalcCore { b0 with quantity := ((b0 :: rest).map BoxType.quantity).sum }
          pallet pattern ⌊((pallet.maxHeight - pallet.height) + EPS) / b0.height⌋ := by
  unfold performCalc at h
  by_cases hg : pallet.width ≤ 0 ∨ pallet.depth ≤ 0 ∨ pallet.maxHeight ≤ pallet.height
  · rw [if_pos hg] at h
    simp [emptyResult] at h
  · rw [if_neg hg] at h
    rcases hv : validBoxes boxes with _ | ⟨b0, rest⟩
    · rw [hv] at h
      simp [emptyResult] at h
    · simp only [hv] at h
      rcases hc : chooseBestLayerPattern pallet.width pallet.depth
          ⟨b0.length, b0.width, 0⟩ ⟨b0.width, b0.length, 90⟩
          (((b0 :: rest).map BoxType.quantity).sum) with _ | pattern
      · rw [hc] at h
        simp [emptyResult] at h
      · simp only [hc] at h
        by_cases hz : pattern.perLayer = 0
        · rw [if_pos hz] at h
          simp [emptyResult] at h
        · rw [if_neg hz] at h
          by_cases hl : ⌊((pallet.maxHeight - pallet.height) + EPS) / b0.height⌋ ≤ 0
          · rw [if_pos hl] at h
            simp [emptyResult] at h
          · refine ⟨b0, rest, pattern, rfl, hg, hc, hz, not_le.mp hl, ?_⟩
            unfold performCalc
            rw [if_neg hg]
            simp only [hv, hc]
            rw [if_neg hz, if_neg hl]

/-! ### Helpers for placement counting -/

theorem snd_mem_of_mem_enumFrom {α : Type _} : ∀ (l : List α) (i : ℕ) (q : ℕ × α),
    q ∈ l.enumFrom i → q.2 ∈ l
  | [], _, _, h => absurd h (List.not_mem_nil _)
  | a :: l, i, q, h => by
    rcases List.mem_cons.mp h with rfl | h
    · exact List.mem_cons_self _ _
    · exact List.mem_cons_of_mem _ (snd_mem_of_mem_enumFrom l (i + 1) q h)

theorem snd_mem_of_mem_enum {α : Type _} {l : List α} {q : ℕ × α}
    (h : q ∈ l.enum) : q.2 ∈ l :=
  snd_mem_of_mem_enumFrom l 0 q h

/-- Members of the validity filter have positive dimensions and quantity. -/
theorem validBoxes_pos {boxes : List BoxType} :
    ∀ bx ∈ validBoxes boxes,
      0 < bx.length ∧ 0 < bx.width ∧ 0 < bx.height ∧ 0 < bx.quantity := by
  intro bx hbx
  have h := List.of_mem_filter hbx
  simp only [Bool.and_eq_true, decide_eq_true_eq] at h
  exact ⟨h.1.1.1, h.1.1.2, h.1.2, h.2⟩

/-- The three viability facts recorded by the candidate filter. -/
theorem mem_viable_props {W D : ℚ} {a b : Footprint} {p : LayerPattern}
    (h : p ∈ viableLayerPatterns W D a b) :
    0 < p.perLayer ∧ p.usedWidth - EPS ≤ W ∧ p.usedDepth - EPS ≤ D := by
  have h2 := List.of_mem_filter h
  simp only [Bool.and_eq_true, decide_eq_true_eq] at h2
  exact ⟨h2.1.1, h2.1.2, h2.2⟩

/-- A finite sum of natural-valued rationals is natural-valued. -/
theorem exists_nat_sum (f : BoxType → ℚ) : ∀ (L : List BoxType),
    (∀ x ∈ L, ∃ n : ℕ, f x = (n : ℚ)) → ∃ N : ℕ, (L.map f).sum = (N : ℚ)
  | [], _ => ⟨0, by simp⟩
  | x :: L, h => by
    obtain ⟨n, hn⟩ := h x (List.mem_cons_self _ _)
    obtain ⟨N, hN⟩ := exists_nat_sum f L (fun y hy => h y (List.mem_cons_of_mem _ hy))
    exact ⟨n + N, by simp [hn, hN]⟩

theorem length_flatMap_const {β : Type _} (n m : ℕ) (f : ℕ → List β)
    (hf : ∀ i, (f i).length = m) : ((List.range n).flatMap f).length = n * m := by
  rw [List.length_flatMap]
  have hcongr : (List.range n).map (List.length ∘ f) = (List.range n).map (fun _ => m) := by
    apply List.map_congr_left
    intro i _
    simp [Function.comp, hf i]
  rw [hcongr]
  simp [List.map_const', List.sum_replicate, smul_eq_mul, mul_comm]

/-- The number of cells returned by the partial selector at a natural target. -/
theorem pickCornerEdgePartialCells_length (cells : List Cell) (m : ℕ) (hm : 1 ≤ m)
    (hne : cells ≠ []) :
    (pickCornerEdgePartialCells cells (m : ℚ)).length = min m cells.length := by
  unfold pickCornerEdgePartialCells
  rw [List.length_map, (pickCornerEdgePartialIdxs_spec cells m hm hne).1]

/-- Placement count and layer count of `buildPlacementsForPallet` at a natural
target `t ≤ k·l` under a well-formed pattern of per-layer capacity `k ≥ 1`:
exactly `t` placements are produced, across `⌈t/k⌉` layers. -/
theorem buildPlacementsForPallet_spec {a b : Footprint} {pattern : LayerPattern}
    (hwf : PatternWF a b pattern) {k l t : ℕ}
    (hk : pattern.perLayer = (k : ℤ)) (hk1 : 1 ≤ k) (ht : t ≤ k * l)
    (base : BoxType) (pallet : PalletConfig) (startId : ℕ) (allFull : Bool) :
    (buildPlacementsForPallet (t : ℚ) ((l : ℕ) : ℤ) pattern base pallet
      startId allFull).1.length = t ∧
    (buildPlacementsForPallet (t : ℚ) ((l : ℕ) : ℤ) pattern base pallet
      startId allFull).2.1 = t / k + (if 0 < t % k then 1 else 0) := by
  have hcells : (materializeLayerCells pattern pallet.width pallet.depth).length = k := by
    rw [materializeLayerCells_length hwf, hk, Int.toNat_natCast]
  have hKmax : max 1 pattern.perLayer = ((k : ℕ) : ℤ) := by
    rw [hk]
    exact max_eq_right (by exact_mod_cast hk1)
  have hdivle : t / k ≤ l := by
    have h1 : t / k ≤ (k * l) / k := Nat.div_le_div_right ht
    rwa [Nat.mul_div_cancel_left l (by omega : 0 < k)] at h1
  have hfloor : ⌊(t : ℚ) / ((((k : ℕ) : ℤ)) : ℚ)⌋ = ((t / k : ℕ) : ℤ) := floor_div_cast t k
  have hmin : min ((t / k : ℕ) : ℤ) ((l : ℕ) : ℤ) = ((t / k : ℕ) : ℤ) :=
    min_eq_left (by exact_mod_cast hdivle)
  have hrem : (t : ℚ) - ((t / k : ℕ) : ℚ) * ((((k : ℕ) : ℤ)) : ℚ) = ((t % k : ℕ) : ℚ) := by
    have hdm := Nat.div_add_mod t k
    have hcast : ((k * (t / k) + t % k : ℕ) : ℚ) = (t : ℚ) := by exact_mod_cast hdm
    push_cast at hcast ⊢
    linarith
  have hltl : 0 < t % k → t / k < l := by
    intro h0
    have htlt : t < k * l := lt_of_le_of_ne ht (by
      intro he
      rw [he, Nat.mul_mod_right] at h0
      exact lt_irrefl 0 h0)
    exact Nat.div_lt_of_lt_mul htlt
  unfold buildPlacementsForPallet
  simp only [hKmax, hcells, hfloor, hmin, Int.toNat_natCast, hrem]
  by_cases h0 : 0 < t % k
  · have hcond : 0 < ((t % k : ℕ) : ℚ) ∧ ((t / k : ℕ) : ℤ) < ((l : ℕ) : ℤ) :=
      ⟨by exact_mod_cast h0, by exact_mod_cast hltl h0⟩
    rw [if_pos hcond]
    constructor
    · simp only [List.length_append, List.length_map]
      rw [length_flatMap_const (t / k) k _ (fun li => by
        rw [List.length_map, List.enum_length, hcells])]
      rw [List.enum_length]
      rw [pickCornerEdgePartialCells_length _ (t % k) h0
        (List.length_pos.mp (by rw [hcells]; omega)), hcells]
      rw [Nat.min_eq_left (le_of_lt (Nat.mod_lt t (by omega)))]
      rw [mul_comm (t / k) k]
      exact Nat.div_add_mod t k
    · rw [if_pos h0]
  · have hcond : ¬ (0 < ((t % k : ℕ) : ℚ) ∧ ((t / k : ℕ) : ℤ) < ((l : ℕ) : ℤ)) := by
      intro hc
      exact h0 (by exact_mod_cast hc.1)
    rw [if_neg hcond]
    constructor
    · rw [length_flatMap_const (t / k) k _ (fun li => by
        rw [List.length_map, List.enum_length, hcells])]
      have h0e : t % k = 0 := by omega
      have := Nat.div_add_mod t k
      rw [mul_comm (t / k) k]
      omega
    · rw [if_neg h0]
      show t / k = t / k + 0
      omega

/-- Shape of one per-pallet fold step: it threads the id counter and appends
one `PalletResult` whose count, layers, capacity and placements come from
`buildPlacementsForPallet` at the clamped target. -/
theorem performCalcPalletStep_shape (cap L : ℤ) (pattern : LayerPattern)
    (base : BoxType) (pallet : PalletConfig) (allFull : Bool)
    (c0 : ℕ) (acc : List PalletResult) (pt : ℕ × ℚ) :
    ∃ pr : PalletResult,
      performCalcPalletStep cap L pattern base pallet allFull (c0, acc) pt =
        ((buildPlacementsForPallet (min pt.2 (cap : ℚ)) L pattern base pallet
          c0 allFull).2.2, acc ++ [pr]) ∧
      pr.totalBoxes = (buildPlacementsForPallet (min pt.2 (cap : ℚ)) L pattern base pallet
        c0 allFull).1.length ∧
      pr.layers = (buildPlacementsForPallet (min pt.2 (cap : ℚ)) L pattern base pallet
        c0 allFull).2.1 ∧
      pr.boxesPerLayer = pattern.perLayer ∧
      pr.placements = (buildPlacementsForPallet (min pt.2 (cap : ℚ)) L pattern base pallet
        c0 allFull).1 :=
  ⟨_, rfl, rfl, rfl, rfl, rfl⟩

/-- Invariant of the per-pallet fold for natural targets within capacity: the
appended results count exactly the targets, and each new pallet respects the
per-layer capacity and the layer bound. -/
theorem palletFold_spec {a b : Footprint} {pattern : LayerPattern}
    (hwf : PatternWF a b pattern) {k l : ℕ}
    (hk : pattern.perLayer = (k : ℤ)) (hk1 : 1 ≤ k)
    (base : BoxType) (pallet : PalletConfig) (allFull : Bool) (cap : ℤ)
    (pts : List (ℕ × ℚ)) :
    ∀ (c0 : ℕ) (acc : List PalletResult),
      (∀ pt ∈ pts, ∃ n : ℕ, pt.2 = (n : ℚ) ∧ n ≤ k * l ∧ ((n : ℚ)) ≤ ((cap : ℤ) : ℚ)) →
      ((((pts.foldl (performCalcPalletStep cap ((l : ℕ) : ℤ) pattern base pallet allFull)
          (c0, acc)).2.map PalletResult.totalBoxes).sum : ℚ) =
        ((acc.map PalletResult.totalBoxes).sum : ℚ) + (pts.map Prod.snd).sum) ∧
      (∀ pr ∈ (pts.foldl (performCalcPalletStep cap ((l : ℕ) : ℤ) pattern base pallet allFull)
          (c0, acc)).2, pr ∈ acc ∨
        (pr.boxesPerLayer = pattern.perLayer ∧ pr.totalBoxes ≤ k * pr.layers ∧
          pr.layers ≤ l)) := by
  induction pts with
  | nil =>
    intro c0 acc h
    constructor
    · simp
    · intro pr hpr
      exact Or.inl hpr
  | cons pt rest ih =>
    intro c0 acc h
    obtain ⟨n, hn, hnkl, hncap⟩ := h pt (List.mem_cons_self _ _)
    have hmint : min pt.2 ((cap : ℤ) : ℚ) = ((n : ℕ) : ℚ) := by
      rw [hn]
      exact min_eq_left hncap
    obtain ⟨pr, hstep, htb, hly, hbpl, hpl⟩ :=
      performCalcPalletStep_shape cap ((l : ℕ) : ℤ) pattern base pallet allFull c0 acc pt
    rw [hmint] at hstep htb hly
    obtain ⟨hlen, hlay⟩ := buildPlacementsForPallet_spec hwf hk hk1 hnkl base pallet c0 allFull
    have hdm := Nat.div_add_mod n k
    have hdivle : n / k ≤ l := by
      have h1 : n / k ≤ (k * l) / k := Nat.div_le_div_right hnkl
      rwa [Nat.mul_div_cancel_left l (by omega : 0 < k)] at h1
    have hbound : n ≤ k * (n / k + if 0 < n % k then 1 else 0) := by
      by_cases h0 : 0 < n % k
      · rw [if_pos h0, Nat.mul_add, Nat.mul_one]
        have hr : n % k < k := Nat.mod_lt _ (by omega)
        linarith [hdm, hr]
      · rw [if_neg h0, Nat.mul_add, Nat.mul_zero]
        have h0e : n % k = 0 := Nat.le_zero.mp (not_lt.mp h0)
        linarith [hdm]
    have hlayle : n / k + (if 0 < n % k then 1 else 0) ≤ l := by
      by_cases h0 : 0 < n % k
      · rw [if_pos h0]
        have hlt : n / k < l := by
          have htlt : n < k * l := lt_of_le_of_ne hnkl (by
            intro he
            rw [he, Nat.mul_mod_right] at h0
            exact lt_irrefl 0 h0)
          exact Nat.div_lt_of_lt_mul htlt
        exact hlt
      · rw [if_neg h0]
        simpa using hdivle
    rw [List.foldl_cons, hstep]
    have hmem' : ∀ q ∈ rest, ∃ n : ℕ, q.2 = (n : ℚ) ∧ n ≤ k * l ∧
        ((n : ℚ)) ≤ ((cap : ℤ) : ℚ) := fun q hq => h q (List.mem_cons_of_mem _ hq)
    obtain ⟨ihsum, ihmem⟩ := ih _ (acc ++ [pr]) hmem'
    constructor
    · rw [ihsum]
      simp only [List.map_append, List.sum_append, List.map_cons, List.map_nil,
        List.sum_cons, List.sum_nil, hn]
      rw [htb, hlen]
      push_cast
      ring
    · intro q hq
      rcases ihmem q hq with hq' | hq'
      · rcases List.mem_append.mp hq' with hq2 | hq2
        · exact Or.inl hq2
        · have hqpr : q = pr := by simpa using hq2
          subst hqpr
          refine Or.inr ⟨hbpl, ?_, ?_⟩
          · rw [htb, hlen, hly, hlay]
            exact hbound
          · rw [hly, hlay]
            exact hlayle
      · exact Or.inr hq'

/-- The success branch conserves a natural total quantity and respects the
per-pallet capacity and layer bounds. -/
theorem performCalcCore_totalBoxes {a b : Footprint} {pattern : LayerPattern}
    (hwf : PatternWF a b pattern) {k l Qn : ℕ}
    (hk : pattern.perLayer = (k : ℤ)) (hk1 : 1 ≤ k) (hl1 : 1 ≤ l) (hQ1 : 1 ≤ Qn)
    (base : BoxType) (pallet : PalletConfig) (hbq : base.quantity = (Qn : ℚ)) :
    ((performCalcCore base pallet pattern ((l : ℕ) : ℤ)).totalBoxes : ℚ) = (Qn : ℚ) ∧
    ∀ pr ∈ (performCalcCore base pallet pattern ((l : ℕ) : ℤ)).pallets,
      pr.boxesPerLayer = pattern.perLayer ∧ pr.totalBoxes ≤ k * pr.layers ∧
        pr.layers ≤ l := by
  have hkl1 : 1 ≤ k * l := Nat.mul_pos (by omega) (by omega)
  simp only [performCalcCore]
  rw [hbq, hk]
  have hmax : max 1 (((k : ℕ) : ℤ) * ((l : ℕ) : ℤ)) = ((k : ℕ) : ℤ) * ((l : ℕ) : ℤ) :=
    max_eq_right (by exact_mod_cast hkl1)
  rw [hmax]
  have hdenpos : (0 : ℚ) < ((((k : ℕ) : ℤ) * ((l : ℕ) : ℤ) : ℤ) : ℚ) := by
    exact_mod_cast Nat.mul_pos (by omega : 0 < k) (by omega : 0 < l)
  have hczpos : 0 < ⌈(Qn : ℚ) / ((((k : ℕ) : ℤ) * ((l : ℕ) : ℤ) : ℤ) : ℚ)⌉ :=
    Int.ceil_pos.mpr (div_pos (by exact_mod_cast (by omega : 0 < Qn)) hdenpos)
  have hPz : ⌈(Qn : ℚ) / ((((k : ℕ) : ℤ) * ((l : ℕ) : ℤ) : ℤ) : ℚ)⌉ =
      ((⌈(Qn : ℚ) / ((((k : ℕ) : ℤ) * ((l : ℕ) : ℤ) : ℤ) : ℚ)⌉.toNat : ℕ) : ℤ) :=
    (Int.toNat_of_nonneg hczpos.le).symm
  have hP1 : 1 ≤ ⌈(Qn : ℚ) / ((((k : ℕ) : ℤ) * ((l : ℕ) : ℤ) : ℤ) : ℚ)⌉.toNat := by
    rw [hPz] at hczpos
    exact_mod_cast hczpos
  have hminP : max 1 ⌈(Qn : ℚ) / ((((k : ℕ) : ℤ) * ((l : ℕ) : ℤ) : ℤ) : ℚ)⌉ =
      ((⌈(Qn : ℚ) / ((((k : ℕ) : ℤ) * ((l : ℕ) : ℤ) : ℤ) : ℚ)⌉.toNat : ℕ) : ℤ) := by
    rw [← hPz]
    exact max_eq_right hczpos
  rw [hminP]
  have hcap : Qn ≤ ⌈(Qn : ℚ) / ((((k : ℕ) : ℤ) * ((l : ℕ) : ℤ) : ℤ) : ℚ)⌉.toNat * k * l := by
    have h1 := Int.le_ceil ((Qn : ℚ) / ((((k : ℕ) : ℤ) * ((l : ℕ) : ℤ) : ℤ) : ℚ))
    rw [div_le_iff hdenpos, hPz] at h1
    have h2 : (Qn : ℚ) ≤ ((⌈(Qn : ℚ) / ((((k : ℕ) : ℤ) * ((l : ℕ) : ℤ) : ℤ) : ℚ)⌉.toNat
        * (k * l) : ℕ) : ℚ) := by
      push_cast at h1 ⊢
      linarith
    have h3 := (Nat.cast_le (α := ℚ)).mp h2
    rwa [← mul_assoc] at h3
  rw [buildTargetsByFullLayers_eq Qn _ k l hP1 hk1 hl1 hcap]
  have hpts : ∀ pt ∈ (targetsSpecList Qn
        ⌈(Qn : ℚ) / ((((k : ℕ) : ℤ) * ((l : ℕ) : ℤ) : ℤ) : ℚ)⌉.toNat k l).enum,
      ∃ n : ℕ, pt.2 = (n : ℚ) ∧ n ≤ k * l ∧
        ((n : ℚ)) ≤ ((((k : ℕ) : ℤ) * ((l : ℕ) : ℤ) : ℤ) : ℚ) := by
    intro pt hpt
    have hsnd := snd_mem_of_mem_enum hpt
    simp only [targetsSpecList, List.mem_map, List.mem_range] at hsnd
    obtain ⟨i, hi, hq⟩ := hsnd
    have hle := targetCountSpec_le Qn _ k l hP1 hk1 hl1 hcap i
    exact ⟨_, hq.symm, hle, by exact_mod_cast hle⟩
  obtain ⟨hsum, hmem⟩ := palletFold_spec hwf hk hk1 base pallet _
    (((k : ℕ) : ℤ) * ((l : ℕ) : ℤ)) _ 0 [] hpts
  constructor
  · rw [hsum]
    simp only [List.map_nil, List.sum_nil, Nat.cast_zero, zero_add, List.enum_map_snd]
    exact targetsSpecList_sum Qn _ k l hP1 hk1 hl1 hcap
  · intro pr hpr
    rcases hmem pr hpr with hempty | hgood
    · exact absurd hempty (List.not_mem_nil _)
    · exact ⟨hgood.1.trans hk, hgood.2.1, hgood.2.2⟩

/-- C1 counterexample: a valid box with the fractional quantity 1/2 passes the
validity filter (the filter only requires positivity), `performCalc` reports no
error, yet the returned `totalBoxes` is 1 while the sum of the valid input
quantities is 1/2 — so conservation fails for fractional quantities. -/
theorem performCalc_quantity_counterexample :
    (performCalc [⟨"b", "s", 1, 1, 1, 1, 1/2, "c"⟩] ⟨"std", 1, 1, 1, 5/2⟩).error = none ∧
    ((performCalc [⟨"b", "s", 1, 1, 1, 1, 1/2, "c"⟩]
        ⟨"std", 1, 1, 1, 5/2⟩).totalBoxes : ℚ) ≠
      ((validBoxes [⟨"b", "s", 1, 1, 1, 1, 1/2, "c"⟩]).map BoxType.quantity).sum := by
  with_unfolding_all decide

/-- C1 (amended): quantity conservation holds whenever every valid input box
has a natural-number quantity: if `performCalc` reports no error, the sum of
`totalBoxes` over the returned pallets equals the sum of the valid input
quantities exactly. -/
theorem performCalc_quantity_conserved {boxes : List BoxType} {pallet : PalletConfig}
    (herr : (performCalc boxes pallet).error = none)
    (hnat : ∀ bx ∈ validBoxes boxes, ∃ n : ℕ, bx.quantity = (n : ℚ)) :
    ((performCalc boxes pallet).totalBoxes : ℚ) =
      ((validBoxes boxes).map BoxType.quantity).sum := by
  obtain ⟨b0, rest, pattern, hv, hg, hc, hz, hlpos, hcalc⟩ := performCalc_success_shape herr
  push_neg at hg
  obtain ⟨hW, hD, hH⟩ := hg
  obtain ⟨Qn, hQsum⟩ := exists_nat_sum BoxType.quantity (b0 :: rest)
    (fun x hx => hnat x (by rw [hv]; exact hx))
  have hallpos : ∀ x ∈ b0 :: rest, 0 < x.quantity := fun x hx =>
    (validBoxes_pos x (by rw [hv]; exact hx)).2.2.2
  have hb0dims := validBoxes_pos b0 (by rw [hv]; exact List.mem_cons_self _ _)
  have hsumpos : 0 < ((b0 :: rest).map BoxType.quantity).sum := by
    apply List.sum_pos
    · intro x hx
      obtain ⟨y, hy, rfl⟩ := List.mem_map.mp hx
      exact hallpos y hy
    · simp
  have hQ1 : 1 ≤ Qn := by
    rw [hQsum] at hsumpos
    exact_mod_cast hsumpos
  have hviable := chooseBestLayerPattern_mem_viable hc
  obtain ⟨hperpos, -, -⟩ := mem_viable_props hviable
  have hk : pattern.perLayer = (pattern.perLayer.toNat : ℤ) :=
    (Int.toNat_of_nonneg hperpos.le).symm
  have hk1 : 1 ≤ pattern.perLayer.toNat := by
    rw [hk] at hperpos
    exact_mod_cast hperpos
  have hL : ⌊((pallet.maxHeight - pallet.height) + EPS) / b0.height⌋ =
      ((⌊((pallet.maxHeight - pallet.height) + EPS) / b0.height⌋.toNat : ℕ) : ℤ) :=
    (Int.toNat_of_nonneg hlpos.le).symm
  have hl1 : 1 ≤ ⌊((pallet.maxHeight - pallet.height) + EPS) / b0.height⌋.toNat := by
    rw [hL] at hlpos
    exact_mod_cast hlpos
  have hwf := chooseBestLayerPattern_wf hW hD ⟨hb0dims.1, hb0dims.2.1⟩
    ⟨hb0dims.2.1, hb0dims.1⟩ hc
  obtain ⟨hsum, -⟩ := performCalcCore_totalBoxes hwf hk hk1 hl1 hQ1
    { b0 with quantity := ((Qn : ℕ) : ℚ) } pallet rfl
  rw [hcalc, hv, hQsum, hL]
  exact hsum

/-- Witness for the amended C1 at one box of quantity 1 on a unit pallet. -/
theorem performCalc_quantity_conserved_witness :
    ((performCalc [⟨"b", "s", 1, 1, 1, 1, 1, "c"⟩] ⟨"std", 1, 1, 1, 5/2⟩).error = none ∧
      (∀ bx ∈ validBoxes [⟨"b", "s", 1, 1, 1, 1, 1, "c"⟩],
        ∃ n : ℕ, bx.quantity = (n : ℚ))) ∧
    ((performCalc [⟨"b", "s", 1, 1, 1, 1, 1, "c"⟩] ⟨"std", 1, 1, 1, 5/2⟩).totalBoxes : ℚ) =
      ((validBoxes [⟨"b", "s", 1, 1, 1, 1, 1, "c"⟩]).map BoxType.quantity).sum := by
  have herr : (performCalc [⟨"b", "s", 1, 1, 1, 1, 1, "c"⟩]
      ⟨"std", 1, 1, 1, 5/2⟩).error = none := by with_unfolding_all decide
  have hvb : validBoxes [⟨"b", "s", 1, 1, 1, 1, 1, "c"⟩] =
      [⟨"b", "s", 1, 1, 1, 1, 1, "c"⟩] := by with_unfolding_all decide
  have hnat : ∀ bx ∈ validBoxes [⟨"b", "s", 1, 1, 1, 1, 1, "c"⟩],
      ∃ n : ℕ, bx.quantity = (n : ℚ) := by
    intro bx hbx
    rw [hvb] at hbx
    have hbe : bx = ⟨"b", "s", 1, 1, 1, 1, 1, "c"⟩ := List.mem_singleton.mp hbx
    exact ⟨1, by rw [hbe]; norm_num⟩
  exact ⟨⟨herr, hnat⟩, performCalc_quantity_conserved herr hnat⟩

/-! ### General bounds on the partial selector (arbitrary rational target) -/

/-- For any target, the edge loop only appends distinct indices drawn from
`remaining`. -/
theorem pickEdgeLoopAux_sub (f : ℕ → ℚ) (r : ℚ) :
    ∀ (fuel : ℕ) (picked remaining : List ℕ), remaining.Nodup →
    ∃ ext, pickEdgeLoopAux f r fuel picked remaining = picked ++ ext ∧
      (∀ i ∈ ext, i ∈ remaining) ∧ ext.Nodup
  | 0, picked, remaining => fun _ =>
    ⟨[], (List.append_nil picked).symm, by simp, List.nodup_nil⟩
  | fuel + 1, picked, remaining => by
    intro hnd
    unfold pickEdgeLoopAux
    by_cases hc : ((picked.length : ℚ) < r) ∧ remaining ≠ []
    · rw [if_pos hc]
      rcases ha : argminQ f remaining with _ | i
      · exact ⟨[], (List.append_nil picked).symm, by simp, List.nodup_nil⟩
      · obtain ⟨ext, heq, hsub, hnde⟩ :=
          pickEdgeLoopAux_sub f r fuel (picked ++ [i]) (remaining.erase i) (hnd.erase i)
        refine ⟨i :: ext, ?_, ?_, ?_⟩
        · show pickEdgeLoopAux f r fuel (picked ++ [i]) (remaining.erase i) =
            picked ++ i :: ext
          rw [heq, List.append_assoc]
          rfl
        · intro j hj
          rcases List.mem_cons.mp hj with rfl | hj
          · exact argminQ_mem ha
          · exact List.mem_of_mem_erase (hsub j hj)
        · refine List.nodup_cons.mpr ⟨?_, hnde⟩
          intro hmem
          exact (List.Nodup.not_mem_erase hnd) (hsub i hmem)
    · rw [if_neg hc]
      exact ⟨[], (List.append_nil picked).symm, by simp, List.nodup_nil⟩

/-- For any rational target the two-phase selector returns at most one index
per cell. -/
theorem pickPipeline_le (cells : List Cell) (r : ℚ) (cP : ℕ → Cell → Bool)
    (cQ : ℕ → ℚ × ℚ) (edgeF : ℕ → ℚ) :
    (pickEdgeLoop edgeF r
        ([0, 1, 2, 3].foldl (pickCornerStep cells r cP cQ) ([], List.range cells.length)).1
        ([0, 1, 2, 3].foldl (pickCornerStep cells r cP cQ)
          ([], List.range cells.length)).2).length ≤ cells.length := by
  have hperm := pickCornerFold_perm cells r cP cQ [0, 1, 2, 3] ([], List.range cells.length)
  generalize hAC : [0, 1, 2, 3].foldl (pickCornerStep cells r cP cQ)
    ([], List.range cells.length) = AC at hperm ⊢
  simp only [List.nil_append] at hperm
  have hnodupAll : (AC.1 ++ AC.2).Nodup := hperm.nodup_iff.mpr (List.nodup_range _)
  have hlensum : AC.1.length + AC.2.length = cells.length := by
    have hl := hperm.length_eq
    simpa using hl
  have hnodup2 : AC.2.Nodup := (List.nodup_append.mp hnodupAll).2.1
  obtain ⟨ext, heq, hsub, hnde⟩ := pickEdgeLoopAux_sub edgeF r AC.2.length AC.1 AC.2 hnodup2
  have hedge : pickEdgeLoop edgeF r AC.1 AC.2 =
      pickEdgeLoopAux edgeF r AC.2.length AC.1 AC.2 := rfl
  rw [hedge, heq, List.length_append]
  have hextle : ext.length ≤ AC.2.length :=
    List.Subperm.length_le (List.Nodup.subperm hnde hsub)
  omega

/-- The partial selector never returns more indices than there are cells. -/
theorem pickCornerEdgePartialIdxs_le (cells : List Cell) (r : ℚ) :
    (pickCornerEdgePartialIdxs cells r).length ≤ cells.length := by
  unfold pickCornerEdgePartialIdxs
  by_cases hr : r ≤ 0
  · rw [if_pos hr]
    simp
  · rw [if_neg hr]
    rcases cells with _ | ⟨c0, ctail⟩
    · simp
    · exact pickPipeline_le (c0 :: ctail) r _ _ _

/-- The partial selector never returns more cells than there are cells. -/
theorem pickCornerEdgePartialCells_le (cells : List Cell) (r : ℚ) :
    (pickCornerEdgePartialCells cells r).length ≤ cells.length := by
  unfold pickCornerEdgePartialCells
  rw [List.length_map]
  exact pickCornerEdgePartialIdxs_le cells r

/-- For every rational target, placements never exceed the per-layer capacity
times the layers used, and the layers used never exceed the layer budget. -/
theorem buildPlacementsForPallet_le {a b : Footprint} {pattern : LayerPattern}
    (hwf : PatternWF a b pattern) {k : ℕ} (hk : pattern.perLayer = (k : ℤ)) (hk1 : 1 ≤ k)
    (t : ℚ) (l : ℕ) (base : BoxType) (pallet : PalletConfig) (startId : ℕ)
    (allFull : Bool) :
    (buildPlacementsForPallet t ((l : ℕ) : ℤ) pattern base pallet
      startId allFull).1.length ≤
      k * (buildPlacementsForPallet t ((l : ℕ) : ℤ) pattern base pallet
        startId allFull).2.1 ∧
    (buildPlacementsForPallet t ((l : ℕ) : ℤ) pattern base pallet
      startId allFull).2.1 ≤ l := by
  have hcells : (materializeLayerCells pattern pallet.width pallet.depth).length = k := by
    rw [materializeLayerCells_length hwf, hk, Int.toNat_natCast]
  have hKmax : max 1 pattern.perLayer = ((k : ℕ) : ℤ) := by
    rw [hk]
    exact max_eq_right (by exact_mod_cast hk1)
  unfold buildPlacementsForPallet
  simp only [hKmax, hcells]
  have hnFle : (min ⌊t / ((((k : ℕ) : ℤ)) : ℚ)⌋ ((l : ℕ) : ℤ)).toNat ≤ l := by
    rw [Int.toNat_le]
    exact min_le_right _ _
  by_cases hc : 0 < t - ((min ⌊t / ((((k : ℕ) : ℤ)) : ℚ)⌋ ((l : ℕ) : ℤ)).toNat : ℚ) *
      ((((k : ℕ) : ℤ)) : ℚ) ∧
      (((min ⌊t / ((((k : ℕ) : ℤ)) : ℚ)⌋ ((l : ℕ) : ℤ)).toNat : ℕ) : ℤ) < ((l : ℕ) : ℤ)
  · rw [if_pos hc]
    have hnFlt : (min ⌊t / ((((k : ℕ) : ℤ)) : ℚ)⌋ ((l : ℕ) : ℤ)).toNat < l := by
      exact_mod_cast hc.2
    constructor
    · simp only [List.length_append, List.length_map, List.enum_length]
      rw [length_flatMap_const _ k _ (fun li => by
        rw [List.length_map, List.enum_length, hcells])]
      have hpick := pickCornerEdgePartialCells_le
        (materializeLayerCells pattern pallet.width pallet.depth)
        (t - ((min ⌊t / ((((k : ℕ) : ℤ)) : ℚ)⌋ ((l : ℕ) : ℤ)).toNat : ℚ) *
          ((((k : ℕ) : ℤ)) : ℚ))
      rw [hcells] at hpick
      set nF := (min ⌊t / ((((k : ℕ) : ℤ)) : ℚ)⌋ ((l : ℕ) : ℤ)).toNat
      calc nF * k + (pickCornerEdgePartialCells
            (materializeLayerCells pattern pallet.width pallet.depth)
            (t - (nF : ℚ) * ((((k : ℕ) : ℤ)) : ℚ))).length
          ≤ nF * k + k := by omega
        _ = k * (nF + 1) := by ring
    · show (min ⌊t / ((((k : ℕ) : ℤ)) : ℚ)⌋ ((l : ℕ) : ℤ)).toNat + 1 ≤ l
      omega
  · rw [if_neg hc]
    constructor
    · rw [length_flatMap_const _ k _ (fun li => by
        rw [List.length_map, List.enum_length, hcells])]
      exact le_of_eq (mul_comm _ k)
    · exact hnFle

/-- Fold invariant without any assumption on the targets: every appended
pallet respects the capacity and layer bounds. -/
theorem palletFold_le {a b : Footprint} {pattern : LayerPattern}
    (hwf : PatternWF a b pattern) {k l : ℕ}
    (hk : pattern.perLayer = (k : ℤ)) (hk1 : 1 ≤ k)
    (base : BoxType) (pallet : PalletConfig) (allFull : Bool) (cap : ℤ)
    (pts : List (ℕ × ℚ)) :
    ∀ (c0 : ℕ) (acc : List PalletResult),
      ∀ pr ∈ (pts.foldl (performCalcPalletStep cap ((l : ℕ) : ℤ) pattern base pallet allFull)
          (c0, acc)).2, pr ∈ acc ∨
        (pr.boxesPerLayer = pattern.perLayer ∧ pr.totalBoxes ≤ k * pr.layers ∧
          pr.layers ≤ l) := by
  induction pts with
  | nil =>
    intro c0 acc pr hpr
    exact Or.inl hpr
  | cons pt rest ih =>
    intro c0 acc pr hpr
    obtain ⟨pr1, hstep, htb, hly, hbpl, hpl⟩ :=
      performCalcPalletStep_shape cap ((l : ℕ) : ℤ) pattern base pallet allFull c0 acc pt
    rw [List.foldl_cons, hstep] at hpr
    obtain ⟨hble, hlle⟩ := buildPlacementsForPallet_le hwf hk hk1
      (min pt.2 ((cap : ℤ) : ℚ)) l base pallet c0 allFull
    rcases ih _ (acc ++ [pr1]) pr hpr with hin | hgood
    · rcases List.mem_append.mp hin with hin2 | hin2
      · exact Or.inl hin2
      · have hppr : pr = pr1 := by simpa using hin2
        subst hppr
        refine Or.inr ⟨hbpl, ?_, ?_⟩
        · rw [htb, hly]
          exact hble
        · rw [hly]
          exact hlle
    · exact Or.inr hgood

/-- Capacity and layer bounds for every pallet of the success branch, for
arbitrary (possibly fractional) base quantity. -/
theorem performCalcCore_pallets_le {a b : Footprint} {pattern : LayerPattern}
    (hwf : PatternWF a b pattern) {k l : ℕ}
    (hk : pattern.perLayer = (k : ℤ)) (hk1 : 1 ≤ k)
    (base : BoxType) (pallet : PalletConfig) :
    ∀ pr ∈ (performCalcCore base pallet pattern ((l : ℕ) : ℤ)).pallets,
      pr.boxesPerLayer = pattern.perLayer ∧ pr.totalBoxes ≤ k * pr.layers ∧
        pr.layers ≤ l := by
  intro pr hpr
  simp only [performCalcCore] at hpr
  rcases palletFold_le hwf hk hk1 base pallet _ _ _ 0 [] pr hpr with hin | hgood
  · exact absurd hin (List.not_mem_nil _)
  · exact hgood

/-- C6 counterexample: the engine computes the layer budget from the clearance
plus EPS, so with clearance 2 − 1e-7 it stacks 2 layers while the claimed bound
`boxesPerLayer × ⌊(maxHeight − deckHeight)/boxHeight⌋` is only 1 — the claim's
EPS-free bound is violated by an error-free result. -/
theorem performCalc_capacity_counterexample :
    (performCalc [⟨"b", "s", 4, 4, 1, 1, 2, "c"⟩]
      ⟨"std", 4, 4, 1, 3 - 1/10000000⟩).error = none ∧
    ∃ pr ∈ (performCalc [⟨"b", "s", 4, 4, 1, 1, 2, "c"⟩]
        ⟨"std", 4, 4, 1, 3 - 1/10000000⟩).pallets,
      ¬ (pr.boxesPerLayer * (pr.layers : ℤ) ≤
          pr.boxesPerLayer * ⌊(((3 : ℚ) - 1/10000000) - 1) / 1⌋) := by
  with_unfolding_all decide

/-- C6 (amended): for every pallet of a non-error result, `totalBoxes ≤
boxesPerLayer × layers`, and `boxesPerLayer × layers ≤ boxesPerLayer ×
⌊(maxHeight − deckHeight + EPS)/boxHeight⌋` — the engine's layer budget
includes the EPS tolerance, so the bound holds with (and only with) the
`+ EPS` correction. -/
theorem performCalc_capacity_bound {boxes : List BoxType} {pallet : PalletConfig}
    (herr : (performCalc boxes pallet).error = none) :
    ∃ b0 rest, validBoxes boxes = b0 :: rest ∧
      ∀ pr ∈ (performCalc boxes pallet).pallets,
        (pr.totalBoxes : ℤ) ≤ pr.boxesPerLayer * (pr.layers : ℤ) ∧
        pr.boxesPerLayer * (pr.layers : ℤ) ≤
          pr.boxesPerLayer * ⌊((pallet.maxHeight - pallet.height) + EPS) / b0.height⌋ := by
  obtain ⟨b0, rest, pattern, hv, hg, hc, hz, hlpos, hcalc⟩ := performCalc_success_shape herr
  push_neg at hg
  obtain ⟨hW, hD, hH⟩ := hg
  have hb0dims := validBoxes_pos b0 (by rw [hv]; exact List.mem_cons_self _ _)
  have hviable := chooseBestLayerPattern_mem_viable hc
  obtain ⟨hperpos, -, -⟩ := mem_viable_props hviable
  have hk : pattern.perLayer = (pattern.perLayer.toNat : ℤ) :=
    (Int.toNat_of_nonneg hperpos.le).symm
  have hk1 : 1 ≤ pattern.perLayer.toNat := by
    rw [hk] at hperpos
    exact_mod_cast hperpos
  have hL : ⌊((pallet.maxHeight - pallet.height) + EPS) / b0.height⌋ =
      ((⌊((pallet.maxHeight - pallet.height) + EPS) / b0.height⌋.toNat : ℕ) : ℤ) :=
    (Int.toNat_of_nonneg hlpos.le).symm
  have hwf := chooseBestLayerPattern_wf hW hD ⟨hb0dims.1, hb0dims.2.1⟩
    ⟨hb0dims.2.1, hb0dims.1⟩ hc
  refine ⟨b0, rest, hv, ?_⟩
  intro pr hpr
  rw [hcalc, hL] at hpr
  obtain ⟨hbpl, htb, hlay⟩ := performCalcCore_pallets_le hwf hk hk1
    { b0 with quantity := ((b0 :: rest).map BoxType.quantity).sum } pallet pr hpr
  constructor
  · rw [hbpl, hk]
    exact_mod_cast htb
  · rw [hbpl, hk, hL]
    have hcast : (pr.layers : ℤ) ≤
        ((⌊((pallet.maxHeight - pallet.height) + EPS) / b0.height⌋.toNat : ℕ) : ℤ) := by
      exact_mod_cast hlay
    exact mul_le_mul_of_nonneg_left hcast (Int.ofNat_nonneg _)

/-- Witness for the amended C6 at the EPS-boundary input. -/
theorem performCalc_capacity_bound_witness :
    (performCalc [⟨"b", "s", 4, 4, 1, 1, 2, "c"⟩]
        ⟨"std", 4, 4, 1, 3 - 1/10000000⟩).error = none ∧
    ∃ b0 rest, validBoxes [⟨"b", "s", 4, 4, 1, 1, 2, "c"⟩] = b0 :: rest ∧
      ∀ pr ∈ (performCalc [⟨"b", "s", 4, 4, 1, 1, 2, "c"⟩]
          ⟨"std", 4, 4, 1, 3 - 1/10000000⟩).pallets,
        (pr.totalBoxes : ℤ) ≤ pr.boxesPerLayer * (pr.layers : ℤ) ∧
        pr.boxesPerLayer * (pr.layers : ℤ) ≤
          pr.boxesPerLayer * ⌊(((3 - 1/10000000 : ℚ) - 1) + EPS) / b0.height⌋ := by
  have herr : (performCalc [⟨"b", "s", 4, 4, 1, 1, 2, "c"⟩]
      ⟨"std", 4, 4, 1, 3 - 1/10000000⟩).error = none := by
    with_unfolding_all decide
  exact ⟨herr, performCalc_capacity_bound herr⟩

/-! ### No-overhang machinery -/

/-- When the footprint fits with a 2·EPS margin, the clamped center keeps the
whole footprint strictly inside the deck. -/
theorem clampCenterInsidePallet_strict (cx cz len wid W D : ℚ)
    (hW : len + 2 * EPS ≤ W) (hD : wid + 2 * EPS ≤ D) :
    |(clampCenterInsidePallet cx cz len wid W D).1| + len / 2 < W / 2 ∧
    |(clampCenterInsidePallet cx cz len wid W D).2| + wid / 2 < D / 2 := by
  have hEPS : (0 : ℚ) < EPS := by norm_num [EPS]
  unfold clampCenterInsidePallet
  constructor
  · have h1 : -(W / 2 - len / 2 - EPS) ≤
        max (-(W / 2) + len / 2 + EPS) (min (W / 2 - len / 2 - EPS) cx) := by
      have he : -(W / 2 - len / 2 - EPS) = -(W / 2) + len / 2 + EPS := by ring
      rw [he]
      exact le_max_left _ _
    have h2 : max (-(W / 2) + len / 2 + EPS) (min (W / 2 - len / 2 - EPS) cx) ≤
        W / 2 - len / 2 - EPS :=
      max_le (by linarith) (min_le_left _ _)
    have habs := abs_le.mpr ⟨h1, h2⟩
    show |max (-(W / 2) + len / 2 + EPS) (min (W / 2 - len / 2 - EPS) cx)| + len / 2 < W / 2
    linarith
  · have h1 : -(D / 2 - wid / 2 - EPS) ≤
        max (-(D / 2) + wid / 2 + EPS) (min (D / 2 - wid / 2 - EPS) cz) := by
      have he : -(D / 2 - wid / 2 - EPS) = -(D / 2) + wid / 2 + EPS := by ring
      rw [he]
      exact le_max_left _ _
    have h2 : max (-(D / 2) + wid / 2 + EPS) (min (D / 2 - wid / 2 - EPS) cz) ≤
        D / 2 - wid / 2 - EPS :=
      max_le (by linarith) (min_le_left _ _)
    have habs := abs_le.mpr ⟨h1, h2⟩
    show |max (-(D / 2) + wid / 2 + EPS) (min (D / 2 - wid / 2 - EPS) cz)| + wid / 2 < D / 2
    linarith

theorem placeCell_x (base : BoxType) (pallet : PalletConfig) (cell : Cell)
    (li n : ℕ) : (placeCell base pallet cell li n).x =
      (clampCenterInsidePallet ((cell.x + cell.fp.len / 2) - pallet.width / 2)
        ((cell.z + cell.fp.wid / 2) - pallet.depth / 2) cell.fp.len cell.fp.wid
        pallet.width pallet.depth).1 := rfl

theorem placeCell_z (base : BoxType) (pallet : PalletConfig) (cell : Cell)
    (li n : ℕ) : (placeCell base pallet cell li n).z =
      (clampCenterInsidePallet ((cell.x + cell.fp.len / 2) - pallet.width / 2)
        ((cell.z + cell.fp.wid / 2) - pallet.depth / 2) cell.fp.len cell.fp.wid
        pallet.width pallet.depth).2 := rfl

theorem placeCell_rotation (base : BoxType) (pallet : PalletConfig) (cell : Cell)
    (li n : ℕ) : (placeCell base pallet cell li n).rotation = cell.fp.rot := rfl

theorem placeCell_box_length (base : BoxType) (pallet : PalletConfig) (cell : Cell)
    (li n : ℕ) : (placeCell base pallet cell li n).box.length = base.length := rfl

theorem placeCell_box_width (base : BoxType) (pallet : PalletConfig) (cell : Cell)
    (li n : ℕ) : (placeCell base pallet cell li n).box.width = base.width := rfl

/-- For any rational target, every selected index is in range. -/
theorem pickPipeline_lt (cells : List Cell) (r : ℚ) (cP : ℕ → Cell → Bool)
    (cQ : ℕ → ℚ × ℚ) (edgeF : ℕ → ℚ) :
    ∀ j ∈ pickEdgeLoop edgeF r
        ([0, 1, 2, 3].foldl (pickCornerStep cells r cP cQ) ([], List.range cells.length)).1
        ([0, 1, 2, 3].foldl (pickCornerStep cells r cP cQ)
          ([], List.range cells.length)).2, j < cells.length := by
  have hperm := pickCornerFold_perm cells r cP cQ [0, 1, 2, 3] ([], List.range cells.length)
  generalize hAC : [0, 1, 2, 3].foldl (pickCornerStep cells r cP cQ)
    ([], List.range cells.length) = AC at hperm ⊢
  simp only [List.nil_append] at hperm
  have hnodupAll : (AC.1 ++ AC.2).Nodup := hperm.nodup_iff.mpr (List.nodup_range _)
  have hnodup2 : AC.2.Nodup := (List.nodup_append.mp hnodupAll).2.1
  obtain ⟨ext, heq, hsub, hnde⟩ := pickEdgeLoopAux_sub edgeF r AC.2.length AC.1 AC.2 hnodup2
  have hedge : pickEdgeLoop edgeF r AC.1 AC.2 =
      pickEdgeLoopAux edgeF r AC.2.length AC.1 AC.2 := rfl
  rw [hedge, heq]
  intro j hj
  have hjall : j ∈ AC.1 ++ AC.2 := by
    rcases List.mem_append.mp hj with hj1 | hj1
    · exact List.mem_append.mpr (Or.inl hj1)
    · exact List.mem_append.mpr (Or.inr (hsub j hj1))
  exact List.mem_range.mp (hperm.mem_iff.mp hjall)

/-- For any rational target, every index returned by the partial selector is
in range. -/
theorem pickCornerEdgePartialIdxs_lt (cells : List Cell) (r : ℚ) :
    ∀ j ∈ pickCornerEdgePartialIdxs cells r, j < cells.length := by
  unfold pickCornerEdgePartialIdxs
  by_cases hr : r ≤ 0
  · rw [if_pos hr]
    intro j hj
    cases hj
  · rw [if_neg hr]
    rcases cells with _ | ⟨c0, ctail⟩
    · intro j hj
      cases hj
    · exact pickPipeline_lt (c0 :: ctail) r _ _ _

/-- Every selected cell is one of the input cells, for any rational target. -/
theorem pickCornerEdgePartialCells_mem (cells : List Cell) (r : ℚ) :
    ∀ c ∈ pickCornerEdgePartialCells cells r, c ∈ cells := by
  intro c hc
  unfold pickCornerEdgePartialCells at hc
  obtain ⟨i, hi, rfl⟩ := List.mem_map.mp hc
  have hlt := pickCornerEdgePartialIdxs_lt cells r i hi
  rw [List.getD_eq_getElem cells dummyCell hlt]
  exact List.getElem_mem hlt

/-- Every placement built for a pallet is the clamped placement of one of the
pattern's materialized cells. -/
theorem buildPlacementsForPallet_mem (t : ℚ) (L : ℤ) (pattern : LayerPattern)
    (base : BoxType) (pallet : PalletConfig) (startId : ℕ) (allFull : Bool) :
    ∀ pl ∈ (buildPlacementsForPallet t L pattern base pallet startId allFull).1,
      ∃ cell ∈ materializeLayerCells pattern pallet.width pallet.depth,
        ∃ li n, pl = placeCell base pallet cell li n := by
  intro pl hpl
  simp only [buildPlacementsForPallet] at hpl
  split at hpl
  · simp only [List.mem_append] at hpl
    rcases hpl with hpl | hpl
    · simp only [List.mem_flatMap, List.mem_map, List.mem_range] at hpl
      obtain ⟨li, -, ic, hic, rfl⟩ := hpl
      exact ⟨ic.2, snd_mem_of_mem_enum hic, li, _, rfl⟩
    · simp only [List.mem_map] at hpl
      obtain ⟨ic, hic, rfl⟩ := hpl
      refine ⟨ic.2, ?_, _, _, rfl⟩
      exact pickCornerEdgePartialCells_mem _ _ ic.2 (snd_mem_of_mem_enum hic)
  · simp only [List.mem_flatMap, List.mem_map, List.mem_range] at hpl
    obtain ⟨li, -, ic, hic, rfl⟩ := hpl
    exact ⟨ic.2, snd_mem_of_mem_enum hic, li, _, rfl⟩

/-- Fold invariant: every placement of every appended pallet comes from a
materialized cell. -/
theorem palletFold_placements (pattern : LayerPattern) (base : BoxType)
    (pallet : PalletConfig) (allFull : Bool) (cap L : ℤ) (pts : List (ℕ × ℚ)) :
    ∀ (c0 : ℕ) (acc : List PalletResult),
      ∀ pr ∈ (pts.foldl (performCalcPalletStep cap L pattern base pallet allFull)
          (c0, acc)).2, pr ∈ acc ∨
        ∀ pl ∈ pr.placements,
          ∃ cell ∈ materializeLayerCells pattern pallet.width pallet.depth,
            ∃ li n, pl = placeCell base pallet cell li n := by
  induction pts with
  | nil =>
    intro c0 acc pr hpr
    exact Or.inl hpr
  | cons pt rest ih =>
    intro c0 acc pr hpr
    obtain ⟨pr1, hstep, htb, hly, hbpl, hplc⟩ :=
      performCalcPalletStep_shape cap L pattern base pallet allFull c0 acc pt
    rw [List.foldl_cons, hstep] at hpr
    rcases ih _ (acc ++ [pr1]) pr hpr with hin | hgood
    · rcases List.mem_append.mp hin with hin2 | hin2
      · exact Or.inl hin2
      · have hppr : pr = pr1 := by simpa using hin2
        subst hppr
        refine Or.inr ?_
        rw [hplc]
        exact buildPlacementsForPallet_mem _ _ _ _ _ _ _
    · exact Or.inr hgood

/-- Every placement of every pallet of the success branch comes from a
materialized cell. -/
theorem performCalcCore_placements (base : BoxType) (pallet : PalletConfig)
    (pattern : LayerPattern) (layersMax : ℤ) :
    ∀ pr ∈ (performCalcCore base pallet pattern layersMax).pallets,
      ∀ pl ∈ pr.placements,
        ∃ cell ∈ materializeLayerCells pattern pallet.width pallet.depth,
          ∃ li n, pl = placeCell base pallet cell li n := by
  intro pr hpr
  simp only [performCalcCore] at hpr
  rcases palletFold_placements pattern base pallet _ _ _ _ 0 [] pr hpr with hin | hgood
  · exact absurd hin (List.not_mem_nil _)
  · exact hgood

/-- C7 counterexample: a box that exactly fills the deck (4×4 box on a 4×4
pallet) is clamped to center ±EPS, so its footprint overhangs the deck edge by
EPS and the claimed strict bound `|x| + len/2 < width/2` fails in an error-free
result. -/
theorem performCalc_overhang_counterexample :
    (performCalc [⟨"b", "s", 4, 4, 1, 1, 1, "c"⟩] ⟨"std", 4, 4, 1, 5/2⟩).error = none ∧
    ∃ p ∈ (performCalc [⟨"b", "s", 4, 4, 1, 1, 1, "c"⟩] ⟨"std", 4, 4, 1, 5/2⟩).pallets,
      ∃ pl ∈ p.placements,
        ¬ (|pl.x| + (if pl.rotation = 0 then pl.box.length else pl.box.width) / 2 <
            (4 : ℚ) / 2) := by
  with_unfolding_all decide

/-- C7 (amended): every placement of a non-error result whose placed footprint
fits the deck with a 2·EPS margin lies strictly inside the deck: the clamp
guarantees `|x| + len/2 < width/2` and `|z| + wid/2 < depth/2` whenever the
clamp interval is nonempty, which the margin hypothesis ensures (and the
counterexample shows is necessary for exact-fit footprints). -/
theorem performCalc_no_overhang {boxes : List BoxType} {pallet : PalletConfig}
    (herr : (performCalc boxes pallet).error = none) :
    ∀ p ∈ (performCalc boxes pallet).pallets, ∀ pl ∈ p.placements,
      ((if pl.rotation = 0 then pl.box.length else pl.box.width) + 2 * EPS ≤
        pallet.width) →
      ((if pl.rotation = 0 then pl.box.width else pl.box.length) + 2 * EPS ≤
        pallet.depth) →
      (|pl.x| + (if pl.rotation = 0 then pl.box.length else pl.box.width) / 2 <
          pallet.width / 2 ∧
        |pl.z| + (if pl.rotation = 0 then pl.box.width else pl.box.length) / 2 <
          pallet.depth / 2) := by
  obtain ⟨b0, rest, pattern, hv, hg, hc, hz, hlpos, hcalc⟩ := performCalc_success_shape herr
  push_neg at hg
  obtain ⟨hW, hD, hH⟩ := hg
  have hb0dims := validBoxes_pos b0 (by rw [hv]; exact List.mem_cons_self _ _)
  have hwf := chooseBestLayerPattern_wf hW hD ⟨hb0dims.1, hb0dims.2.1⟩
    ⟨hb0dims.2.1, hb0dims.1⟩ hc
  intro p hp pl hpl hlen hwid
  rw [hcalc] at hp
  obtain ⟨cell, hcell, li, n, rfl⟩ :=
    performCalcCore_placements _ pallet pattern _ p hp pl hpl
  have hfp := materializeLayerCells_fp hwf pallet.width pallet.depth cell hcell
  rcases hfp with hfp | hfp
  · simp only [placeCell_rotation, placeCell_box_length, placeCell_box_width, hfp,
      if_pos] at hlen hwid ⊢
    rw [placeCell_x, placeCell_z, hfp]
    exact clampCenterInsidePallet_strict _ _ _ _ _ _ hlen hwid
  · simp only [placeCell_rotation, placeCell_box_length, placeCell_box_width, hfp] at hlen hwid ⊢
    norm_num at hlen hwid ⊢
    rw [placeCell_x, placeCell_z, hfp]
    exact clampCenterInsidePallet_strict _ _ _ _ _ _ hlen hwid

/-- Witness for the amended C7: a 1×1 box on a 4×4 deck fits with margin. -/
theorem performCalc_no_overhang_witness :
    (performCalc [⟨"b", "s", 1, 1, 1, 1, 1, "c"⟩] ⟨"std", 4, 4, 1, 5/2⟩).error = none ∧
    ∀ p ∈ (performCalc [⟨"b", "s", 1, 1, 1, 1, 1, "c"⟩] ⟨"std", 4, 4, 1, 5/2⟩).pallets,
      ∀ pl ∈ p.placements,
        ((if pl.rotation = 0 then pl.box.length else pl.box.width) + 2 * EPS ≤
          (⟨"std", 4, 4, 1, 5/2⟩ : PalletConfig).width) →
        ((if pl.rotation = 0 then pl.box.width else pl.box.length) + 2 * EPS ≤
          (⟨"std", 4, 4, 1, 5/2⟩ : PalletConfig).depth) →
        (|pl.x| + (if pl.rotation = 0 then pl.box.length else pl.box.width) / 2 <
            (⟨"std", 4, 4, 1, 5/2⟩ : PalletConfig).width / 2 ∧
          |pl.z| + (if pl.rotation = 0 then pl.box.width else pl.box.length) / 2 <
            (⟨"std", 4, 4, 1, 5/2⟩ : PalletConfig).depth / 2) := by
  have herr : (performCalc [⟨"b", "s", 1, 1, 1, 1, 1, "c"⟩]
      ⟨"std", 4, 4, 1, 5/2⟩).error = none := by
    with_unfolding_all decide
  exact ⟨herr, performCalc_no_overhang herr⟩

/-! ### Scenario E machinery -/

theorem filter_layer_map {α : Type _} (L : List α) (f : α → BoxPlacement) (c j : ℕ)
    (hf : ∀ x, (f x).layer = c) :
    ((L.map f).filter (fun pl => pl.layer == j)).length =
      if c = j then L.length else 0 := by
  by_cases hcj : c = j
  · rw [if_pos hcj, List.filter_eq_self.mpr, List.length_map]
    intro pl hpl
    obtain ⟨x, hx, rfl⟩ := List.mem_map.mp hpl
    simp [hf x, hcj]
  · rw [if_neg hcj, List.filter_eq_nil_iff.mpr]
    · rfl
    · intro pl hpl
      obtain ⟨x, hx, rfl⟩ := List.mem_map.mp hpl
      simp [hf x, hcj]

/-- Layer structure of `buildPlacementsForPallet` at target `k + 1` with at
least two layers of headroom: two layers are used, layer 0 holds `k`
placements and layer 1 exactly one. -/
theorem buildPlacementsForPallet_layers {a b : Footprint} {pattern : LayerPattern}
    (hwf : PatternWF a b pattern) {k l : ℕ}
    (hk : pattern.perLayer = (k : ℤ)) (hk1 : 1 ≤ k) (hl2 : 2 ≤ l)
    (base : BoxType) (pallet : PalletConfig) (startId : ℕ) (allFull : Bool) :
    ((buildPlacementsForPallet ((k + 1 : ℕ) : ℚ) ((l : ℕ) : ℤ) pattern base pallet
        startId allFull).1.filter (fun pl => pl.layer == 0)).length = k ∧
    ((buildPlacementsForPallet ((k + 1 : ℕ) : ℚ) ((l : ℕ) : ℤ) pattern base pallet
        startId allFull).1.filter (fun pl => pl.layer == 1)).length = 1 ∧
    (buildPlacementsForPallet ((k + 1 : ℕ) : ℚ) ((l : ℕ) : ℤ) pattern base pallet
        startId allFull).2.1 = 2 := by
  have hcells : (materializeLayerCells pattern pallet.width pallet.depth).length = k := by
    rw [materializeLayerCells_length hwf, hk, Int.toNat_natCast]
  have hne : materializeLayerCells pattern pallet.width pallet.depth ≠ [] :=
    List.length_pos.mp (by rw [hcells]; omega)
  have hKmax : max 1 pattern.perLayer = ((k : ℕ) : ℤ) := by
    rw [hk]
    exact max_eq_right (by exact_mod_cast hk1)
  have hfloor : ⌊((k + 1 : ℕ) : ℚ) / ((((k : ℕ) : ℤ)) : ℚ)⌋ = (((k + 1) / k : ℕ) : ℤ) :=
    floor_div_cast (k + 1) k
  unfold buildPlacementsForPallet
  simp only [hKmax, hcells, hfloor]
  by_cases hk2 : 2 ≤ k
  · have hd : (k + 1) / k = 1 := by
      rw [add_comm, Nat.add_div_right _ (by omega), Nat.div_eq_of_lt (by omega)]
    have hmin1 : min (((k + 1) / k : ℕ) : ℤ) ((l : ℕ) : ℤ) = (((1 : ℕ)) : ℤ) := by
      rw [hd]
      exact min_eq_left (by exact_mod_cast (by omega : (1 : ℕ) ≤ l))
    rw [hmin1, Int.toNat_natCast]
    have hrem1 : ((k + 1 : ℕ) : ℚ) - (((1 : ℕ)) : ℚ) * ((((k : ℕ) : ℤ)) : ℚ) =
        (((1 : ℕ)) : ℚ) := by
      push_cast
      ring
    rw [hrem1]
    rw [if_pos ⟨by norm_num, by exact_mod_cast (by omega : (1 : ℕ) < l)⟩]
    have hpick : (pickCornerEdgePartialCells
        (materializeLayerCells pattern pallet.width pallet.depth)
        (((1 : ℕ)) : ℚ)).length = 1 := by
      rw [pickCornerEdgePartialCells_length _ 1 le_rfl hne, hcells]
      omega
    have hrange1 : List.range 1 = [0] := rfl
    refine ⟨?_, ?_, rfl⟩
    · rw [hrange1]
      simp only [List.flatMap_cons, List.flatMap_nil, List.append_nil,
        List.filter_append, List.length_append]
      rw [filter_layer_map _ _ 0 0 (fun x => rfl), filter_layer_map _ _ 1 0 (fun x => rfl)]
      simp [List.enum_length, hcells]
    · rw [hrange1]
      simp only [List.flatMap_cons, List.flatMap_nil, List.append_nil,
        List.filter_append, List.length_append]
      rw [filter_layer_map _ _ 0 1 (fun x => rfl), filter_layer_map _ _ 1 1 (fun x => rfl)]
      simp only [List.enum_length, if_neg (by omega : ¬ 0 = 1), if_pos rfl, zero_add]
      simpa using hpick
  · have hke : k = 1 := by omega
    subst hke
    have hd : (1 + 1) / 1 = 2 := by norm_num
    rw [hd]
    have hmin2 : min (((2 : ℕ)) : ℤ) ((l : ℕ) : ℤ) = (((2 : ℕ)) : ℤ) :=
      min_eq_left (by exact_mod_cast hl2)
    rw [hmin2, Int.toNat_natCast]
    rw [if_neg (by
      intro hcond
      have h1 := hcond.1
      push_cast at h1
      linarith)]
    have hrange : List.range 2 = [0, 1] := rfl
    refine ⟨?_, ?_, rfl⟩
    · rw [hrange]
      simp only [List.flatMap_cons, List.flatMap_nil, List.append_nil,
        List.filter_append, List.length_append]
      rw [filter_layer_map _ _ 0 0 (fun x => rfl), filter_layer_map _ _ 1 0 (fun x => rfl)]
      simp [List.enum_length, hcells]
    · rw [hrange]
      simp only [List.flatMap_cons, List.flatMap_nil, List.append_nil,
        List.filter_append, List.length_append]
      rw [filter_layer_map _ _ 0 1 (fun x => rfl), filter_layer_map _ _ 1 1 (fun x => rfl)]
      simp [List.enum_length, hcells]

/-- Scenario E at the success branch: with `K + 1` boxes and two layers of
headroom, one pallet is produced with two layers, `K` placements in layer 0
and exactly one in layer 1. -/
theorem performCalcCore_scenarioE {a b : Footprint} {pattern : LayerPattern}
    (hwf : PatternWF a b pattern) {k l : ℕ}
    (hk : pattern.perLayer = (k : ℤ)) (hk1 : 1 ≤ k) (hl2 : 2 ≤ l)
    (base : BoxType) (pallet : PalletConfig)
    (hbq : base.quantity = ((k + 1 : ℕ) : ℚ)) :
    ∃ p, (performCalcCore base pallet pattern ((l : ℕ) : ℤ)).pallets = [p] ∧
      p.layers = 2 ∧
      (p.placements.filter (fun pl => pl.layer == 0)).length = k ∧
      (p.placements.filter (fun pl => pl.layer == 1)).length = 1 := by
  have hkl : k + 1 ≤ k * l := by nlinarith
  have hkl1 : 1 ≤ k * l := by nlinarith
  simp only [performCalcCore]
  rw [hbq, hk]
  have hmax : max 1 (((k : ℕ) : ℤ) * ((l : ℕ) : ℤ)) = ((k : ℕ) : ℤ) * ((l : ℕ) : ℤ) :=
    max_eq_right (by exact_mod_cast hkl1)
  rw [hmax]
  have hdenpos : (0 : ℚ) < ((((k : ℕ) : ℤ) * ((l : ℕ) : ℤ) : ℤ) : ℚ) := by
    exact_mod_cast Nat.mul_pos (by omega : 0 < k) (by omega : 0 < l)
  have hceil1 : ⌈((k + 1 : ℕ) : ℚ) / ((((k : ℕ) : ℤ) * ((l : ℕ) : ℤ) : ℤ) : ℚ)⌉ = 1 := by
    have hpos : 0 < ⌈((k + 1 : ℕ) : ℚ) / ((((k : ℕ) : ℤ) * ((l : ℕ) : ℤ) : ℤ) : ℚ)⌉ :=
      Int.ceil_pos.mpr (div_pos (by exact_mod_cast (by omega : 0 < k + 1)) hdenpos)
    have hle : ⌈((k + 1 : ℕ) : ℚ) / ((((k : ℕ) : ℤ) * ((l : ℕ) : ℤ) : ℤ) : ℚ)⌉ ≤ 1 := by
      apply Int.ceil_le.mpr
      push_cast
      rw [div_le_one (by exact_mod_cast hdenpos)]
      exact_mod_cast hkl
    omega
  rw [hceil1]
  have hmax11 : max (1 : ℤ) 1 = ((1 : ℕ) : ℤ) := by simp
  rw [hmax11]
  rw [buildTargetsByFullLayers_eq (k + 1) 1 k l le_rfl hk1 (by omega)
    (by simpa using hkl)]
  have htcs : targetCountSpec (k + 1) 1 k l 0 = k + 1 := by
    unfold targetCountSpec targetLayersSpec
    simp only [Nat.div_one, Nat.mod_one, Nat.lt_irrefl, if_false, add_zero,
      Nat.sub_self, and_true]
    by_cases hk2 : 2 ≤ k
    · have hd : (k + 1) / k = 1 := by
        rw [add_comm, Nat.add_div_right _ (by omega), Nat.div_eq_of_lt (by omega)]
      have hm : (k + 1) % k = 1 := by
        rw [add_comm, Nat.add_mod_right, Nat.mod_eq_of_lt (by omega)]
      rw [hd, hm, min_eq_left (by omega : (1 : ℕ) ≤ l)]
      norm_num
    · have hke : k = 1 := by omega
      subst hke
      norm_num
      omega
  have hrange1 : List.range 1 = [0] := rfl
  have htspec : targetsSpecList (k + 1) 1 k l = [((k + 1 : ℕ) : ℚ)] := by
    unfold targetsSpecList
    rw [hrange1]
    simp [htcs]
  rw [htspec]
  have henum : ([((k + 1 : ℕ) : ℚ)]).enum = [((0 : ℕ), ((k + 1 : ℕ) : ℚ))] := rfl
  rw [henum]
  simp only [List.foldl_cons, List.foldl_nil]
  obtain ⟨pr, hstep, htb, hly, hbpl, hplc⟩ :=
    performCalcPalletStep_shape (((k : ℕ) : ℤ) * ((l : ℕ) : ℤ)) ((l : ℕ) : ℤ)
      pattern base pallet
      (([((k + 1 : ℕ) : ℚ)]).all (fun t => decide (jsMod t ((((k : ℕ) : ℤ)) : ℚ) = 0)))
      0 [] ((0 : ℕ), ((k + 1 : ℕ) : ℚ))
  rw [hstep]
  have hmint : min ((0 : ℕ), ((k + 1 : ℕ) : ℚ)).2
      ((((k : ℕ) : ℤ) * ((l : ℕ) : ℤ) : ℤ) : ℚ) = ((k + 1 : ℕ) : ℚ) := by
    show min ((k + 1 : ℕ) : ℚ) ((((k : ℕ) : ℤ) * ((l : ℕ) : ℤ) : ℤ) : ℚ) =
      ((k + 1 : ℕ) : ℚ)
    apply min_eq_left
    push_cast
    exact_mod_cast hkl
  rw [hmint] at htb hly hplc
  obtain ⟨hf0, hf1, h2⟩ := buildPlacementsForPallet_layers hwf hk hk1 hl2 base pallet 0
    (([((k + 1 : ℕ) : ℚ)]).all (fun t => decide (jsMod t ((((k : ℕ) : ℤ)) : ℚ) = 0)))
  refine ⟨pr, by simp, ?_, ?_, ?_⟩
  · rw [hly, h2]
  · rw [hplc, hf0]
  · rw [hplc, hf1]

/-- C9 counterexample: for a 5×2 box on a 7×5 deck with quantity 4 the engine
selects a split pattern with per-layer capacity K = 3, produces one pallet
with 2 layers and 4 boxes — but the single layer-1 placement is the placement
of cell (0, 1/2), which sits at no grid corner of the layer (the corners are
the cells at x ∈ {0, 5} and z ∈ {0, 5/2}); the split layout has no cell at the
front-left corner, and the fallback picks the nearest cell instead. -/
theorem performCalc_scenarioE_counterexample :
    chooseBestLayerPattern 7 5 ⟨5, 2, 0⟩ ⟨2, 5, 90⟩ 4 =
      some ⟨.splitX, [⟨1, 2, ⟨5, 2, 0⟩⟩, ⟨1, 1, ⟨2, 5, 90⟩⟩], 7, 5, 3, 1, 2⟩ ∧
    materializeLayerCells
        ⟨.splitX, [⟨1, 2, ⟨5, 2, 0⟩⟩, ⟨1, 1, ⟨2, 5, 90⟩⟩], 7, 5, 3, 1, 2⟩ 7 5 =
      [⟨0, 1/2, ⟨5, 2, 0⟩⟩, ⟨0, 5/2, ⟨5, 2, 0⟩⟩, ⟨5, 0, ⟨2, 5, 90⟩⟩] ∧
    (([⟨0, 1/2, ⟨5, 2, 0⟩⟩, ⟨0, 5/2, ⟨5, 2, 0⟩⟩,
        (⟨5, 0, ⟨2, 5, 90⟩⟩ : Cell)].map Cell.x).foldl min 0 = 0 ∧
      ([⟨0, 1/2, ⟨5, 2, 0⟩⟩, ⟨0, 5/2, ⟨5, 2, 0⟩⟩,
        (⟨5, 0, ⟨2, 5, 90⟩⟩ : Cell)].map Cell.x).foldl max 0 = 5 ∧
      ([⟨0, 1/2, ⟨5, 2, 0⟩⟩, ⟨0, 5/2, ⟨5, 2, 0⟩⟩,
        (⟨5, 0, ⟨2, 5, 90⟩⟩ : Cell)].map Cell.z).foldl min (1/2) = 0 ∧
      ([⟨0, 1/2, ⟨5, 2, 0⟩⟩, ⟨0, 5/2, ⟨5, 2, 0⟩⟩,
        (⟨5, 0, ⟨2, 5, 90⟩⟩ : Cell)].map Cell.z).foldl max (1/2) = 5/2) ∧
    (performCalc [⟨"b", "s", 5, 2, 1, 1, 4, "c"⟩] ⟨"std", 7, 5, 1, 7/2⟩).error = none ∧
    (performCalc [⟨"b", "s", 5, 2, 1, 1, 4, "c"⟩] ⟨"std", 7, 5, 1, 7/2⟩).pallets.map
      (fun p => (p.layers, p.totalBoxes)) = [(2, 4)] ∧
    ∀ p ∈ (performCalc [⟨"b", "s", 5, 2, 1, 1, 4, "c"⟩] ⟨"std", 7, 5, 1, 7/2⟩).pallets,
      ∀ pl ∈ p.placements, pl.layer = 1 →
        ∀ c ∈ [⟨0, 1/2, ⟨5, 2, 0⟩⟩, ⟨0, 5/2, ⟨5, 2, 0⟩⟩, (⟨5, 0, ⟨2, 5, 90⟩⟩ : Cell)],
          ((c.x = 0 ∨ c.x = 5) ∧ (c.z = 0 ∨ c.z = 5/2)) →
            ¬ (pl.x = (clampCenterInsidePallet ((c.x + c.fp.len / 2) - 7 / 2)
                  ((c.z + c.fp.wid / 2) - 5 / 2) c.fp.len c.fp.wid 7 5).1 ∧
               pl.z = (clampCenterInsidePallet ((c.x + c.fp.len / 2) - 7 / 2)
                  ((c.z + c.fp.wid / 2) - 5 / 2) c.fp.len c.fp.wid 7 5).2) := by
  refine ⟨by with_unfolding_all decide, by with_unfolding_all decide,
    ⟨by with_unfolding_all decide, by with_unfolding_all decide,
      by with_unfolding_all decide, by with_unfolding_all decide⟩,
    by with_unfolding_all decide, by with_unfolding_all decide, ?_⟩
  have hmap : (performCalc [⟨"b", "s", 5, 2, 1, 1, 4, "c"⟩]
      ⟨"std", 7, 5, 1, 7/2⟩).pallets.map
      (fun p => p.placements.map
        (fun pl => (pl.layer, pl.x.num, pl.x.den, pl.z.num, pl.z.den))) =
      [[(0, -999999, 1000000, -1, 1), (0, -999999, 1000000, 1, 1),
        (0, 2499999, 1000000, 1, 1000000), (1, -999999, 1000000, -1, 1)]] := by
    with_unfolding_all decide
  intro p hp pl hpl hl1 c hc hcorner hpos
  have hlen1 : (performCalc [⟨"b", "s", 5, 2, 1, 1, 4, "c"⟩]
      ⟨"std", 7, 5, 1, 7/2⟩).pallets.length = 1 := by
    have hcg := congrArg List.length hmap
    simpa using hcg
  obtain ⟨p0, hp0⟩ := List.length_eq_one.mp hlen1
  rw [hp0] at hp hmap
  have hpp0 : p = p0 := by simpa using hp
  subst hpp0
  simp only [List.map_cons, List.map_nil] at hmap
  injection hmap with hq hnil
  have hmem5 : (pl.layer, pl.x.num, pl.x.den, pl.z.num, pl.z.den) ∈
      [((0 : ℕ), (-999999 : ℤ), (1000000 : ℕ), (-1 : ℤ), (1 : ℕ)),
        (0, -999999, 1000000, 1, 1), (0, 2499999, 1000000, 1, 1000000),
        (1, -999999, 1000000, -1, 1)] := by
    rw [← hq]
    exact List.mem_map_of_mem _ hpl
  simp only [List.mem_cons, List.not_mem_nil, or_false, Prod.mk.injEq] at hmem5
  rcases hmem5 with h | h | h | h
  · rw [hl1] at h
    exact absurd h.1 (by decide)
  · rw [hl1] at h
    exact absurd h.1 (by decide)
  · rw [hl1] at h
    exact absurd h.1 (by decide)
  · obtain ⟨-, hxn, hxd, hzn, hzd⟩ := h
    simp only [List.mem_cons, List.not_mem_nil, or_false] at hc
    rcases hc with rfl | rfl | rfl
    · rcases hcorner.2 with hcz | hcz <;> norm_num at hcz
    · have hzeq := congrArg Rat.num hpos.2
      rw [hzn] at hzeq
      have hcc : ((clampCenterInsidePallet
          (((⟨0, 5/2, ⟨5, 2, 0⟩⟩ : Cell).x + (⟨0, 5/2, ⟨5, 2, 0⟩⟩ : Cell).fp.len / 2) - 7 / 2)
          (((⟨0, 5/2, ⟨5, 2, 0⟩⟩ : Cell).z + (⟨0, 5/2, ⟨5, 2, 0⟩⟩ : Cell).fp.wid / 2) - 5 / 2)
          (⟨0, 5/2, ⟨5, 2, 0⟩⟩ : Cell).fp.len (⟨0, 5/2, ⟨5, 2, 0⟩⟩ : Cell).fp.wid 7 5).2).num
          = 1 := by
        with_unfolding_all decide
      rw [hcc] at hzeq
      exact absurd hzeq (by decide)
    · have hxeq := congrArg Rat.num hpos.1
      rw [hxn] at hxeq
      have hcc : ((clampCenterInsidePallet
          (((⟨5, 0, ⟨2, 5, 90⟩⟩ : Cell).x + (⟨5, 0, ⟨2, 5, 90⟩⟩ : Cell).fp.len / 2) - 7 / 2)
          (((⟨5, 0, ⟨2, 5, 90⟩⟩ : Cell).z + (⟨5, 0, ⟨2, 5, 90⟩⟩ : Cell).fp.wid / 2) - 5 / 2)
          (⟨5, 0, ⟨2, 5, 90⟩⟩ : Cell).fp.len (⟨5, 0, ⟨2, 5, 90⟩⟩ : Cell).fp.wid 7 5).1).num
          = 2499999 := by
        with_unfolding_all decide
      rw [hcc] at hxeq
      exact absurd hxeq (by decide)

/-- C9 (amended): Scenario E holds except for the corner positioning — if the
valid boxes aggregate to quantity `K + 1` for the selected pattern's per-layer
capacity `K` and the envelope admits at least 2 layers, the result is one
pallet with 2 layers, `K` placements in layer 0 and exactly one placement in
layer 1 (which the counterexample shows need not sit at a grid corner). -/
theorem performCalc_scenarioE {boxes : List BoxType} {pallet : PalletConfig}
    {b0 : BoxType} {rest : List BoxType} {pattern : LayerPattern}
    (hv : validBoxes boxes = b0 :: rest)
    (hc : chooseBestLayerPattern pallet.width pallet.depth ⟨b0.length, b0.width, 0⟩
      ⟨b0.width, b0.length, 90⟩ (((b0 :: rest).map BoxType.quantity).sum) = some pattern)
    (herr : (performCalc boxes pallet).error = none)
    (hqty : ((b0 :: rest).map BoxType.quantity).sum =
      ((pattern.perLayer.toNat + 1 : ℕ) : ℚ))
    (hl2 : 2 ≤ ⌊((pallet.maxHeight - pallet.height) + EPS) / b0.height⌋) :
    ∃ p, (performCalc boxes pallet).pallets = [p] ∧
      p.layers = 2 ∧
      (p.placements.filter (fun pl => pl.layer == 0)).length = pattern.perLayer.toNat ∧
      (p.placements.filter (fun pl => pl.layer == 1)).length = 1 := by
  obtain ⟨b0', rest', pattern', hv', hg, hc', hz', hlpos, hcalc⟩ :=
    performCalc_success_shape herr
  rw [hv] at hv'
  injection hv' with hb0 hrest
  subst hb0
  subst hrest
  rw [hc] at hc'
  injection hc' with hpat
  subst hpat
  push_neg at hg
  obtain ⟨hW, hD, hH⟩ := hg
  have hb0dims := validBoxes_pos b0 (by rw [hv]; exact List.mem_cons_self _ _)
  have hviable := chooseBestLayerPattern_mem_viable hc
  obtain ⟨hperpos, -, -⟩ := mem_viable_props hviable
  have hk : pattern.perLayer = (pattern.perLayer.toNat : ℤ) :=
    (Int.toNat_of_nonneg hperpos.le).symm
  have hk1 : 1 ≤ pattern.perLayer.toNat := by
    rw [hk] at hperpos
    exact_mod_cast hperpos
  have hL : ⌊((pallet.maxHeight - pallet.height) + EPS) / b0.height⌋ =
      ((⌊((pallet.maxHeight - pallet.height) + EPS) / b0.height⌋.toNat : ℕ) : ℤ) :=
    (Int.toNat_of_nonneg hlpos.le).symm
  have hl2n : 2 ≤ ⌊((pallet.maxHeight - pallet.height) + EPS) / b0.height⌋.toNat := by
    rw [hL] at hl2
    exact_mod_cast hl2
  have hwf := chooseBestLayerPattern_wf hW hD ⟨hb0dims.1, hb0dims.2.1⟩
    ⟨hb0dims.2.1, hb0dims.1⟩ hc
  obtain ⟨p, hps, hlay, hf0, hf1⟩ := performCalcCore_scenarioE hwf hk hk1 hl2n
    { b0 with quantity := ((b0 :: rest).map BoxType.quantity).sum } pallet hqty
  rw [hcalc, hL]
  exact ⟨p, hps, hlay, hf0, hf1⟩

/-- Witness for the amended C9: a unit box of quantity 2 on a unit deck has
K = 1 and quantity K + 1 = 2. -/
theorem performCalc_scenarioE_witness :
    (validBoxes [⟨"b", "s", 1, 1, 1, 1, 2, "c"⟩] =
        (⟨"b", "s", 1, 1, 1, 1, 2, "c"⟩ : BoxType) :: [] ∧
      chooseBestLayerPattern 1 1 ⟨1, 1, 0⟩ ⟨1, 1, 90⟩
        ((([(⟨"b", "s", 1, 1, 1, 1, 2, "c"⟩ : BoxType)]).map BoxType.quantity).sum) =
        some ⟨.grid, [⟨1, 1, ⟨1, 1, 0⟩⟩], 1, 1, 1, 1, 1⟩ ∧
      (performCalc [⟨"b", "s", 1, 1, 1, 1, 2, "c"⟩] ⟨"std", 1, 1, 1, 7/2⟩).error = none ∧
      (([(⟨"b", "s", 1, 1, 1, 1, 2, "c"⟩ : BoxType)]).map BoxType.quantity).sum =
        (((⟨.grid, [⟨1, 1, ⟨1, 1, 0⟩⟩], 1, 1, 1, 1, 1⟩ :
          LayerPattern).perLayer.toNat + 1 : ℕ) : ℚ) ∧
      2 ≤ ⌊((((7 : ℚ)/2) - 1) + EPS) / 1⌋) ∧
    ∃ p, (performCalc [⟨"b", "s", 1, 1, 1, 1, 2, "c"⟩] ⟨"std", 1, 1, 1, 7/2⟩).pallets =
        [p] ∧
      p.layers = 2 ∧
      (p.placements.filter (fun pl => pl.layer == 0)).length =
        (⟨.grid, [⟨1, 1, ⟨1, 1, 0⟩⟩], 1, 1, 1, 1, 1⟩ : LayerPattern).perLayer.toNat ∧
      (p.placements.filter (fun pl => pl.layer == 1)).length = 1 := by
  have hv : validBoxes [⟨"b", "s", 1, 1, 1, 1, 2, "c"⟩] =
      (⟨"b", "s", 1, 1, 1, 1, 2, "c"⟩ : BoxType) :: [] := by
    with_unfolding_all decide
  have hc : chooseBestLayerPattern 1 1 ⟨1, 1, 0⟩ ⟨1, 1, 90⟩
      ((([(⟨"b", "s", 1, 1, 1, 1, 2, "c"⟩ : BoxType)]).map BoxType.quantity).sum) =
      some ⟨.grid, [⟨1, 1, ⟨1, 1, 0⟩⟩], 1, 1, 1, 1, 1⟩ := by
    with_unfolding_all decide
  have herr : (performCalc [⟨"b", "s", 1, 1, 1, 1, 2, "c"⟩]
      ⟨"std", 1, 1, 1, 7/2⟩).error = none := by
    with_unfolding_all decide
  have hqty : (([(⟨"b", "s", 1, 1, 1, 1, 2, "c"⟩ : BoxType)]).map BoxType.quantity).sum =
      (((⟨.grid, [⟨1, 1, ⟨1, 1, 0⟩⟩], 1, 1, 1, 1, 1⟩ :
        LayerPattern).perLayer.toNat + 1 : ℕ) : ℚ) := by
    with_unfolding_all decide
  have hl2 : 2 ≤ ⌊((((7 : ℚ)/2) - 1) + EPS) / 1⌋ := by
    with_unfolding_all decide
  exact ⟨⟨hv, hc, herr, hqty, hl2⟩, performCalc_scenarioE hv hc herr hqty hl2⟩

end PalletBuilder
